import Mathlib

/-!
Verification of `mi-algorithms`: importer cursor logic, ReLU layer, Matrix mutators.

Shallow embedding of

* `src/data_io/Importer.hpp`  (sequential sample / batch retrieval),
* `src/mlnn/ReLU.cpp`         (forward / backward pass),
* `src/types/Matrix.hpp`      (in-place elementwise and broadcast operations),
* `src/data_utils/rand.cpp`   (`uniform`, `permute`, `rand_real01`, `get_rand_range`,
  `rand_int_radius`).

Conventions of the embedding

* `size_t` values are natural numbers; every `size_t` addition is reduced modulo `2 ^ 64`.
* A raw buffer (`T* data()`) is a `List`; a read or write outside the buffer is undefined
  behaviour in C++ and is modelled by the result `none`.
* A `float` value is a finite rational, `+inf`, `-inf` or NaN (`FloatVal`).  The operations
  used (`fmaxf`, comparison with zero, multiplication by `0.0f` or `1.0f`) are exact on finite
  floats, so no rounding is involved; on infinities and NaN they follow IEEE 754
  (`0 * inf` and `0 * NaN` are NaN).  The sign of zero is not kept.
* Output written with `printf` is collected in a list of strings.
* Matrix dimensions and `size_t` loop counters over a buffer are natural numbers: a buffer of
  `rows * cols` elements exists in memory, so this index arithmetic stays far below the range
  of `size_t`.  The `int` counter of the two `ReLU` loops is modelled with its range: the
  increment `i++` at `i = 2 ^ 31 - 1` is a signed overflow, undefined behaviour (`none`).
* An operand passed by reference to a `Matrix` operation is an object different from the
  receiver, except in `elementwiseFunctionMatrixCall`, where the operand may be the receiver
  itself.
* `int` and `unsigned` are 32 bits wide; a conversion between integer types keeps the low bits.
* A `double` product is the exact product rounded (`roundToDouble`, or a rounding passed as a
  parameter with its properties as hypotheses); the conversion of a `double` to `int` truncates
  and, outside the range of `int`, where the language defines no result, gives the value the
  implementation delivers, a parameter (`-2 ^ 31` on x86-64).  A `long double` product
  converted to `unsigned long long` is a parameter of the function that uses it.
* A draw of `std::uniform_int_distribution<>(a, b)` is a function parameter `index_dist` with
  the contract of the library (`a ≤ result ≤ b` when `a ≤ b`); the generator state is threaded
  through explicitly.
* `unsigned long long` values are natural numbers reduced modulo `2 ^ 64`.
* A function that may call itself without end takes a bound on the depth of nested calls and
  produces `none` when the bound is reached.
-/

namespace mic

/-! ## Machine integers and loops -/

/-- Modulus of `size_t` arithmetic (64-bit target). -/
def SIZE_T_MOD : Nat := 2 ^ 64

/-- Counted loop `for (i = start; i < start + count; i++) s = body(i, s)` whose body may hit
undefined behaviour (`none`); `count` is the number of iterations still to run. -/
def forFrom {σ : Type} (body : Nat → σ → Option σ) : Nat → Nat → σ → Option σ
  | _, 0, s => some s
  | i, k + 1, s => (body i s).bind (forFrom body (i + 1) k)

/-- Loop `for (size_t i = 0; i < n; i++) s = body(i, s)`. -/
def forLoop {σ : Type} (n : Nat) (body : Nat → σ → Option σ) (s : σ) : Option σ :=
  forFrom body 0 n s

/-- Read `p[i]` from a buffer; `none` when `i` is outside the buffer. -/
def readAt {α : Type} (buf : List α) (i : Nat) : Option α := buf[i]?

/-- Write `p[i] = v` into a buffer; `none` when `i` is outside the buffer. -/
def writeAt {α : Type} (buf : List α) (i : Nat) (v : α) : Option (List α) :=
  if i < buf.length then some (buf.set i v) else none

/-- Modulus of `unsigned` / `int` arithmetic (32 bits). -/
def UINT_MOD : Nat := 2 ^ 32

/-- Largest value of `int`. -/
def INT_MAX : Int := 2147483647

/-- Conversion of a `size_t` value to `int` (two's complement: the low 32 bits, read as a
signed number). -/
def sizeToInt (v : Nat) : Int :=
  if v % UINT_MOD < 2 ^ 31 then ((v % UINT_MOD : Nat) : Int)
  else ((v % UINT_MOD : Nat) : Int) - (UINT_MOD : Int)

/-- Conversion of an `int` value to `size_t` (reduction modulo `2 ^ 64`). -/
def intToSize (d : Int) : Nat := (d % (SIZE_T_MOD : Int)).toNat

/-- Conversion of an `int` value to `unsigned int` (reduction modulo `2 ^ 32`). -/
def intToUnsigned (d : Int) : Nat := (d % (UINT_MOD : Int)).toNat

/-- One iteration of a loop `for (int i = 0; ...; i++)`: the body at `i`, then the increment
`i++`, which is undefined (`none`) when `i` is the largest `int`. -/
def intCounterStep {σ : Type} (body : Nat → σ → Option σ) (i : Nat) (s : σ) : Option σ :=
  (body i s).bind (fun s' => if (i : Int) + 1 ≤ INT_MAX then some s' else none)

/-! ## `data_io::Importer` -/

/-- State of an `Importer` as far as sequential retrieval is concerned:
`dataset_size` is `this->sample_data.size()`, the other two fields are the properties
`next_sample_index` and `batch_size` (both `size_t`). -/
structure Importer where
  dataset_size : Nat
  next_sample_index : Nat
  batch_size : Nat
  deriving DecidableEq

namespace Importer

/-- Embedding of `Importer::getNextSample` (Importer.hpp, lines 104-115).  The sample itself is
produced by `getSampleDirect(next_sample_index)` (declared in `types/Batch.hpp`); the model
returns the index handed to that accessor together with the new importer state. -/
def getNextSample (imp : Importer) : Nat × Importer :=
  let imp1 : Importer :=
    if imp.next_sample_index ≥ imp.dataset_size then { imp with next_sample_index := 0 } else imp
  let sample := imp1.next_sample_index
  (sample, { imp1 with next_sample_index := (imp1.next_sample_index + 1) % SIZE_T_MOD })

/-- The index vector built by the loop
`for (size_t i = 0; i < batch_size; i++) indices.push_back((size_t)(next_sample_index + i));`. -/
def batchIndices (next_sample_index batch_size : Nat) : List Nat :=
  (List.range batch_size).foldl
    (fun indices i => indices ++ [(next_sample_index + i) % SIZE_T_MOD]) []

/-- Embedding of `Importer::getNextBatch` (Importer.hpp, lines 167-186).  The batch is produced
by `getBatchDirect(indices)` (declared in `types/Batch.hpp`); the model returns the vector
`indices` handed to that accessor together with the new importer state. -/
def getNextBatch (imp : Importer) : List Nat × Importer :=
  let imp1 : Importer :=
    if (imp.next_sample_index + imp.batch_size) % SIZE_T_MOD ≥ imp.dataset_size then
      { imp with next_sample_index := 0 }
    else imp
  let indices := batchIndices imp1.next_sample_index imp1.batch_size
  (indices,
    { imp1 with next_sample_index := (imp1.next_sample_index + imp1.batch_size) % SIZE_T_MOD })

/-- Embedding of `Importer::setNextSampleIndex` (Importer.hpp, lines 223-225). -/
def setNextSampleIndex (imp : Importer) (index_ : Nat) : Importer :=
  { imp with next_sample_index := index_ }

/-- Embedding of `Importer::setBatchSize` (Importer.hpp, lines 231-233). -/
def setBatchSize (imp : Importer) (batch_size_ : Nat) : Importer :=
  { imp with batch_size := batch_size_ }

/-- Embedding of `Importer::isLastSample` (Importer.hpp, lines 239-241). -/
def isLastSample (imp : Importer) : Bool :=
  decide (imp.next_sample_index ≥ imp.dataset_size)

/-- Embedding of `Importer::isLastBatch` (Importer.hpp, lines 247-249). -/
def isLastBatch (imp : Importer) : Bool :=
  decide ((imp.next_sample_index + imp.batch_size) % SIZE_T_MOD ≥ imp.dataset_size)

/-- Embedding of `Importer::getRandomSample` (Importer.hpp, lines 84-96).  `index_dist a b g`
stands for a draw of `std::uniform_int_distribution<>(a, b)` from the generator state `g` and
returns the drawn `int` with the new generator state; constructing the distribution with
`b < a` is undefined behaviour (`none`).  The result is the index handed to `getSampleDirect`,
the importer state and the generator state after the call. -/
def getRandomSample {G : Type} (index_dist : Int → Int → G → Int × G) (imp : Importer)
    (g : G) : Option (Nat × Importer × G) :=
  let hi : Int := sizeToInt ((imp.dataset_size + SIZE_T_MOD - 1) % SIZE_T_MOD)
  if 0 ≤ hi then
    let r := index_dist 0 hi g
    let tmp_index : Nat := intToUnsigned r.1
    some (tmp_index, imp, r.2)
  else none

/-- The loop of `getRandomBatch`,
`for (size_t i = 0; i < batch_size; i++) tmp_indices.push_back((size_t)index_dist(rng));`,
on the pair (`tmp_indices`, generator state). -/
def randomIndices {G : Type} (index_dist : Int → Int → G → Int × G) (hi : Int)
    (batch_size : Nat) (g : G) : List Nat × G :=
  (List.range batch_size).foldl
    (fun st _ => ((st.1 ++ [intToSize (index_dist 0 hi st.2).1]), (index_dist 0 hi st.2).2))
    ([], g)

/-- Embedding of `Importer::getRandomBatch` (Importer.hpp, lines 144-158), with `index_dist` as
in `getRandomSample`.  The result is the vector `tmp_indices` handed to `getBatchDirect`, the
importer state and the generator state after the call. -/
def getRandomBatch {G : Type} (index_dist : Int → Int → G → Int × G) (imp : Importer)
    (g : G) : Option (List Nat × Importer × G) :=
  let hi : Int := sizeToInt ((imp.dataset_size + SIZE_T_MOD - 1) % SIZE_T_MOD)
  if 0 ≤ hi then
    let r := randomIndices index_dist hi imp.batch_size g
    some (r.1, imp, r.2)
  else none

/-- A concrete distribution over a counter as generator state, used to run the code on sample
inputs: the `g`-th draw from `[a, b]` is `a + g mod (b - a + 1)`. -/
def counterDist (a b : Int) (g : Nat) : Int × Nat :=
  (a + (g : Int) % (b - a + 1), g + 1)

/-- Results of `k` successive calls of `getNextSample`, in call order, with the final state. -/
def nextSamples : Nat → Importer → List Nat × Importer
  | 0, imp => ([], imp)
  | k + 1, imp =>
    let prev := nextSamples k imp
    let r := getNextSample prev.2
    (prev.1 ++ [r.1], r.2)

/-- Results of `k` successive calls of `getNextBatch`, in call order, with the final state. -/
def nextBatches : Nat → Importer → List (List Nat) × Importer
  | 0, imp => ([], imp)
  | k + 1, imp =>
    let prev := nextBatches k imp
    let r := getNextBatch prev.2
    (prev.1 ++ [r.1], r.2)

end Importer

/-! ## Specification predicates -/

/-- The buffer `d` agrees with the target values `tgt` below position `p` and with the original
buffer `old` from `p` on. -/
def Upd {α : Type} (old : List α) (tgt : Nat → Option α) (p : Nat) (d : List α) : Prop :=
  d.length = old.length ∧ ∀ k, k < old.length → d[k]? = if k < p then tgt k else old[k]?

/-! ## `types::Matrix` -/

/-- Dense matrix `Eigen::Matrix<T, Dynamic, Dynamic>`: row count, column count and the backing
storage `data()` in Eigen's default column-major order. -/
structure Matrix (α : Type) where
  rows : Nat
  cols : Nat
  data : List α
  deriving DecidableEq

/-- Column vector `Eigen::Matrix<T, Dynamic, 1>` (`VectorX<T>`, Matrix.hpp, lines 28-29): only
the backing storage varies, the column count is fixed to one by the type. -/
structure VectorX (α : Type) where
  data : List α
  deriving DecidableEq

/-- Operand of a call that takes a matrix by reference: the receiver of the call itself, or an
object different from the receiver. -/
inductive Operand (α : Type) where
  | receiver
  | object (m : Matrix α)

namespace VectorX

/-- Row count reported by `rows()`: the number of components. -/
def rows {α : Type} (v : VectorX α) : Nat := v.data.length

/-- Column count reported by `cols()`: the compile-time constant `1`. -/
def cols {α : Type} (_v : VectorX α) : Nat := 1

/-- Component access `v_(i)`. -/
def coeff {α : Type} (v : VectorX α) (i : Nat) : Option α := readAt v.data i

end VectorX

namespace Matrix

/-- Storage invariant of Eigen: the buffer holds `rows * cols` elements. -/
def WF {α : Type} (m : Matrix α) : Prop := m.data.length = m.rows * m.cols

instance {α : Type} (m : Matrix α) : Decidable m.WF := by unfold WF; infer_instance

/-- Coefficient read `(*this)(y, x)`: element `y + x * rows` of the column-major buffer;
an index pair outside the matrix is undefined behaviour. -/
def coeff {α : Type} (m : Matrix α) (y x : Nat) : Option α :=
  if y < m.rows ∧ x < m.cols then readAt m.data (y + x * m.rows) else none

/-- Coefficient write `(*this)(y, x) = v`. -/
def setCoeff {α : Type} (m : Matrix α) (y x : Nat) (v : α) : Option (Matrix α) :=
  if y < m.rows ∧ x < m.cols then
    (writeAt m.data (y + x * m.rows) v).map (fun d => { m with data := d })
  else none

/-- Embedding of `Matrix::elementwiseFunction` (Matrix.hpp, lines 121-131). -/
def elementwiseFunction {α : Type} (func : α → α) (self : Matrix α) : Option (Matrix α) :=
  (forLoop (self.rows * self.cols)
    (fun i data_ptr => (readAt data_ptr i).bind (fun e => writeAt data_ptr i (func e)))
    self.data).map (fun d => { self with data := d })

/-- Embedding of `Matrix::elementwiseFunctionScalar` (Matrix.hpp, lines 138-148). -/
def elementwiseFunctionScalar {α : Type} (func : α → α → α) (scalar_ : α) (self : Matrix α) :
    Option (Matrix α) :=
  (forLoop (self.rows * self.cols)
    (fun i data_ptr => (readAt data_ptr i).bind (fun e => writeAt data_ptr i (func e scalar_)))
    self.data).map (fun d => { self with data := d })

/-- Body of the loop of `Matrix::elementwiseFunctionMatrix`,
`data_ptr[i] = (*func)(data_ptr[i], m_data_ptr[i]);`, on the pair of buffers
(`data_ptr`, `m_data_ptr`). -/
def elementwiseFunctionMatrixStep {α : Type} (func : α → α → α) (i : Nat)
    (st : List α × List α) : Option (List α × List α) :=
  (readAt st.1 i).bind (fun e =>
    (readAt st.2 i).bind (fun o =>
      (writeAt st.1 i (func e o)).map (fun d => (d, st.2))))

/-- Embedding of `Matrix::elementwiseFunctionMatrix` (Matrix.hpp, lines 155-172) for an operand
`mat_` that is an object different from the receiver (for the receiver itself as operand see
`elementwiseFunctionMatrixCall`).  The first component is what the call prints; the second is
the pair (receiver, operand) after the loop, or `none` when the loop leaves one of the two
buffers. -/
def elementwiseFunctionMatrix {α : Type} (func : α → α → α) (self mat_ : Matrix α) :
    List String × Option (Matrix α × Matrix α) :=
  let out : List String :=
    if self.rows ≠ mat_.rows ∨ self.cols ≠ mat_.cols then
      ["elementwiseFunctionMatrix: dimensions mismatch!\n"]
    else []
  let res := forLoop (self.rows * self.cols) (elementwiseFunctionMatrixStep func)
    (self.data, mat_.data)
  (out, res.map (fun st => ({ self with data := st.1 }, { mat_ with data := st.2 })))

/-- Body of the loop of `Matrix::elementwiseFunctionMatrix` when `mat_` is the receiver itself:
`data_ptr` and `m_data_ptr` are then the same buffer, read twice and written once. -/
def elementwiseFunctionMatrixSelfStep {α : Type} (func : α → α → α) (i : Nat)
    (data_ptr : List α) : Option (List α) :=
  (readAt data_ptr i).bind (fun e =>
    (readAt data_ptr i).bind (fun o => writeAt data_ptr i (func e o)))

/-- Embedding of a call `self.elementwiseFunctionMatrix(func, mat_)` for either kind of
operand the reference parameter `mat_` admits.  With the receiver itself as operand the
dimension check compares the receiver with itself and the loop works on one buffer; the pair
returned is then (receiver, operand) after the loop, both the same object. -/
def elementwiseFunctionMatrixCall {α : Type} (func : α → α → α) (self : Matrix α) :
    Operand α → List String × Option (Matrix α × Matrix α)
  | .object mat_ => elementwiseFunctionMatrix func self mat_
  | .receiver =>
    let out : List String :=
      if self.rows ≠ self.rows ∨ self.cols ≠ self.cols then
        ["elementwiseFunctionMatrix: dimensions mismatch!\n"]
      else []
    let res := forLoop (self.rows * self.cols) (elementwiseFunctionMatrixSelfStep func)
      self.data
    (out, res.map (fun d => ({ self with data := d }, { self with data := d })))

/-- Nested loop shared by the three column-by-column operations:
`for (size_t x = 0; x < cols(); x++) for (size_t y = 0; y < rows(); y++) cell(x, y);`. -/
def forEachCell {α : Type} (cell : Nat → Nat → Matrix α → Option (Matrix α))
    (self : Matrix α) : Option (Matrix α) :=
  forLoop self.cols (fun x m => forLoop m.rows (cell x) m) self

/-- Cell update of `matrixColumnVectorFunction`:
`(*this)(y, x) = (*func)((*this)(y, x), v_(y));`. -/
def columnVectorCell {α : Type} (func : α → α → α) (v_ : VectorX α) (x y : Nat)
    (m : Matrix α) : Option (Matrix α) :=
  (m.coeff y x).bind (fun e => (v_.coeff y).bind (fun c => m.setCoeff y x (func e c)))

/-- Embedding of `Matrix::matrixColumnVectorFunction` (Matrix.hpp, lines 179-199).  The first
component is what the call prints. -/
def matrixColumnVectorFunction {α : Type} (func : α → α → α) (self : Matrix α)
    (v_ : VectorX α) : List String × Option (Matrix α) :=
  let out : List String :=
    if self.rows ≠ v_.cols then ["matrixColumnVectorFunction: dimensions mismatch\n"] else []
  (out, forEachCell (columnVectorCell func v_) self)

/-- Cell update of `matrixRowVectorFunction`:
`(*this)(y, x) = (*func)((*this)(y, x), v_(x));`. -/
def rowVectorCell {α : Type} (func : α → α → α) (v_ : VectorX α) (x y : Nat)
    (m : Matrix α) : Option (Matrix α) :=
  (m.coeff y x).bind (fun e => (v_.coeff x).bind (fun c => m.setCoeff y x (func e c)))

/-- Embedding of `Matrix::matrixRowVectorFunction` (Matrix.hpp, lines 206-227).  The first
component is what the call prints. -/
def matrixRowVectorFunction {α : Type} (func : α → α → α) (self : Matrix α)
    (v_ : VectorX α) : List String × Option (Matrix α) :=
  let out : List String :=
    if self.cols ≠ v_.cols then ["matrixRowVectorFunction: dimensions mismatch\n"] else []
  (out, forEachCell (rowVectorCell func v_) self)

/-- Cell update of `repeatVector`: `(*this)(y, x) = in(y);`. -/
def repeatVectorCell {α : Type} (v : VectorX α) (x y : Nat) (m : Matrix α) :
    Option (Matrix α) :=
  (v.coeff y).bind (fun c => m.setCoeff y x c)

/-- Embedding of `Matrix::repeatVector` (Matrix.hpp, lines 233-242). -/
def repeatVector {α : Type} (self : Matrix α) (v : VectorX α) : Option (Matrix α) :=
  forEachCell (repeatVectorCell v) self

end Matrix

/-! ## `mlnn::ReLU` -/

/-- Value of a `float`: a finite number (as a rational; the sign of zero is not distinguished),
an infinity or NaN. -/
inductive FloatVal where
  | fin (q : ℚ)
  | pinf
  | ninf
  | nan
  deriving DecidableEq

namespace FloatVal

/-- Comparison `a > 0`: false for NaN. -/
def gtZero : FloatVal → Bool
  | fin q => decide (0 < q)
  | pinf => true
  | ninf => false
  | nan => false

/-- Conversion `(float) b` of the result of a comparison: `1.0f` or `0.0f`. -/
def ofBool (b : Bool) : FloatVal := if b then fin 1 else fin 0

/-- Product `a * b` of IEEE arithmetic: NaN when a factor is NaN or when zero meets an
infinity, an infinity of the product's sign when an infinity meets a non-zero factor.  The
product of two finite values is taken exactly, which is what the float product is when one
factor is `0.0f` or `1.0f`, the only case `ReLU` produces. -/
def mul : FloatVal → FloatVal → FloatVal
  | nan, _ => nan
  | _, nan => nan
  | fin a, fin b => fin (a * b)
  | fin a, pinf => if 0 < a then pinf else if a < 0 then ninf else nan
  | fin a, ninf => if 0 < a then ninf else if a < 0 then pinf else nan
  | pinf, fin b => if 0 < b then pinf else if b < 0 then ninf else nan
  | ninf, fin b => if 0 < b then ninf else if b < 0 then pinf else nan
  | pinf, pinf => pinf
  | pinf, ninf => ninf
  | ninf, pinf => ninf
  | ninf, ninf => pinf

end FloatVal

/-- C function `fmaxf`: the larger argument; when one argument is NaN, the other one. -/
def fmaxf : FloatVal → FloatVal → FloatVal
  | .nan, b => b
  | a, .nan => a
  | .pinf, _ => .pinf
  | _, .pinf => .pinf
  | .ninf, b => b
  | a, .ninf => a
  | .fin a, .fin b => .fin (max a b)

/-- The four buffers of a layer that `ReLU` touches: the activations `s['x']`, `s['y']` and the
gradients `g['x']`, `g['y']`. -/
structure Layer where
  sx : Matrix FloatVal
  sy : Matrix FloatVal
  gx : Matrix FloatVal
  gy : Matrix FloatVal
  deriving DecidableEq

namespace ReLU

/-- Body of the loop of `ReLU::forward`: `y[i] = fmaxf(x[i], 0.0f);`. -/
def forwardStep (i : Nat) (l : Layer) : Option Layer :=
  (readAt l.sx.data i).bind (fun xi =>
    (writeAt l.sy.data i (fmaxf xi (.fin 0))).map
      (fun y => { l with sy := { l.sy with data := y } }))

/-- Embedding of `ReLU::forward` (ReLU.cpp, lines 20-32): the loop
`for (int i = 0; i < s['x']->rows() * s['x']->cols(); i++)` with its `int` counter. -/
def forward (_apply_dropout : Bool) (l : Layer) : Option Layer :=
  forLoop (l.sx.rows * l.sx.cols) (intCounterStep forwardStep) l

/-- Body of the loop of `ReLU::backward`:
`float dy = (float)(y[i] > 0); gx[i] = dy * gy[i];`. -/
def backwardStep (i : Nat) (l : Layer) : Option Layer :=
  (readAt l.sy.data i).bind (fun yi =>
    let dy : FloatVal := FloatVal.ofBool yi.gtZero
    (readAt l.gy.data i).bind (fun gyi =>
      (writeAt l.gx.data i (dy.mul gyi)).map
        (fun gx => { l with gx := { l.gx with data := gx } })))

/-- Embedding of `ReLU::backward` (ReLU.cpp, lines 34-52): the loop
`for (int i = 0; i < g['x']->rows() * g['x']->cols(); i++)` with its `int` counter. -/
def backward (l : Layer) : Option Layer :=
  forLoop (l.gx.rows * l.gx.cols) (intCounterStep backwardStep) l

end ReLU

/-! ## `data_utils` (rand.cpp) -/

namespace data_utils

/-- Truncation of a value toward zero. -/
def truncate (x : ℚ) : Int := if 0 ≤ x then ⌊x⌋ else ⌈x⌉

/-- Rounding of a rational to the nearest integer, a tie going to the even one. -/
def roundHalfEven (q : ℚ) : Int :=
  let f : Int := ⌊q⌋
  if q - f < 1 / 2 then f
  else if 1 / 2 < q - f then f + 1
  else if f % 2 = 0 then f else f + 1

/-- Rounding of an exact value to `double` (IEEE 754 binary64, round to nearest, ties to
even): 53 significant bits at the binary exponent of `x`, the exponent being at least `-1022`
(below it the spacing of the subnormal numbers).  Values beyond the largest finite `double`
do not occur in this development. -/
def roundToDouble (x : ℚ) : ℚ :=
  if x = 0 then 0
  else
    let e : Int := max (Int.log 2 |x|) (-1022)
    (roundHalfEven (x / 2 ^ (e - 52)) : ℚ) * 2 ^ (e - 52)

/-- Conversion `(int) x` of a `double`: truncation toward zero when the truncated value is in
the range of `int`.  For a value outside that range the language defines no result;
`outOfRange` is the `int` the implementation delivers there: `-2 ^ 31` from the conversion
instruction of x86-64 (`cvttsd2si`), `2 ^ 31 - 1` from a conversion that saturates (the
instruction of AArch64, or a conversion the compiler evaluates itself). -/
def doubleToInt (outOfRange : Int) (x : ℚ) : Int :=
  if -INT_MAX - 1 ≤ truncate x ∧ truncate x ≤ INT_MAX then truncate x else outOfRange

/-- Embedding of `uniform` (rand.cpp, lines 128-130),
`return (i + (int) (((double) (m - i)) * rand_real01()));`, with the value `r` returned by
`rand_real01()`.  `m - i` is an `unsigned` difference, converted to `double` without loss;
the product is a `double` product, the exact product rounded by `fl` (`roundToDouble` for the
compiled code); the conversion to `int` is `doubleToInt`, with the value `outOfRange` where
the language defines none; the sum is an `unsigned` sum. -/
def uniform (fl : ℚ → ℚ) (outOfRange : Int) (i m : Nat) (r : ℚ) : Nat :=
  let diff : Nat := (m + UINT_MOD - i) % UINT_MOD
  intToUnsigned ((i : Int) + doubleToInt outOfRange (fl ((diff : ℚ) * r)))

/-- Modulus of `unsigned long long` arithmetic (64 bits). -/
def ULL_MOD : Nat := 2 ^ 64

/-- Body of the loop of `permute` once the call `uniform(i, n - 1)` has returned `j0`:
the two clamps `if (j<0) j=0; if (j>n-1) j=n-1;` on the `unsigned` value and the swap of
`permutation[i]` and `permutation[j]`. -/
def permuteSwap (n i j0 : Nat) (permutation : List Int) : Option (List Int) :=
  let j1 : Nat := if j0 < 0 then 0 else j0
  let j : Nat := if j1 > (n + UINT_MOD - 1) % UINT_MOD then (n + UINT_MOD - 1) % UINT_MOD else j1
  (readAt permutation i).bind (fun swap =>
    (readAt permutation j).bind (fun pj =>
      (writeAt permutation i pj).bind (fun p1 => writeAt p1 j swap)))

/-- Embedding of `permute` (rand.cpp, lines 132-142).  `uniform_ i m` is the outcome of the call
`uniform(i, m)` made by iteration `i`: the value it returns, or `none` when the call has no
defined value.  Every iteration calls with a different `i`, so a function of the arguments
describes every sequence of returned values. -/
def permute (uniform_ : Nat → Nat → Option Nat) (permutation : List Int) (n : Nat) :
    Option (List Int) :=
  forLoop n
    (fun i arr => (uniform_ i ((n + UINT_MOD - 1) % UINT_MOD)).bind
      (fun j0 => permuteSwap n i j0 arr))
    permutation

mutual

/-- Embedding of `get_rand_range` (rand.cpp, lines 42-46),
`return (fabs(maximum - minimum) * rand_real01() + minimum);`.  `USE_MT_RNG` is the build flag,
`genrand` the value `genrand64_real2()` would return, `depth` the bound on the depth of nested
calls: no value is produced (`none`) when the bound is reached. -/
def get_rand_range (USE_MT_RNG : Bool) (genrand : ℚ) : Nat → ℚ → ℚ → Option ℚ
  | 0, _, _ => none
  | depth + 1, minimum, maximum =>
    (rand_real01 USE_MT_RNG genrand depth).map (fun r => |maximum - minimum| * r + minimum)

/-- Embedding of `rand_real01` (rand.cpp, lines 48-56): with `USE_MT_RNG` it returns
`genrand64_real2()`, without it calls `get_rand_range(0.0f, 1.0f)`. -/
def rand_real01 (USE_MT_RNG : Bool) (genrand : ℚ) : Nat → Option ℚ
  | 0 => none
  | depth + 1 =>
    if USE_MT_RNG then some genrand else get_rand_range USE_MT_RNG genrand depth 0 1

end

/-- Embedding of `rand_int_radius` (rand.cpp, lines 68-78).  `rand_num` is the value the
statement `rand_num = (unsigned long long)((long double)range * rand_real01());` leaves in
`rand_num`, the drawn offset: the product is a `long double` product, rounded before the
conversion, so the offset is a parameter and not computed from the exact product.  The two
updates of `center` and the sum `center + max` are `unsigned long long` operations; `% max`
has no value for `max = 0`. -/
def rand_int_radius (center radius max rand_num : Nat) : Option Nat :=
  let center1 : Nat := (center + ULL_MOD - radius) % ULL_MOD
  let center2 : Nat := (center1 + rand_num) % ULL_MOD
  if max = 0 then none else some (((center2 + max) % ULL_MOD) % max)

end data_utils

/-! ## Auxiliary facts: machine integers -/

theorem SIZE_T_MOD_eq : SIZE_T_MOD = 18446744073709551616 := by
  norm_num [SIZE_T_MOD]

namespace Importer

theorem batchIndices_eq_map (c b : Nat) :
    batchIndices c b = (List.range b).map (fun i => (c + i) % SIZE_T_MOD) := by
  unfold batchIndices
  induction b with
  | zero => rfl
  | succ k ih => rw [List.range_succ, List.foldl_append, ih]; simp

theorem batchIndices_eq_range' (c b : Nat) (h : c + b ≤ SIZE_T_MOD) :
    batchIndices c b = List.range' c b := by
  rw [batchIndices_eq_map]
  apply List.ext_getElem
  · simp
  · intro i h1 h2
    simp at h1
    simp [List.getElem_range']
    apply Nat.mod_eq_of_lt
    omega

/-- C1: with dataset size `n ≥ 1`, batch size `b ≥ 1` and cursor `c` such that `c + b` does not
overflow, `getNextBatch` returns the indices `c, c+1, ..., c+b-1` and moves the cursor to `c + b`
when `c + b < n`; otherwise it returns `0, 1, ..., b-1` and leaves the cursor at `b`
(the cursor was reset to `0` first).  Dataset size and batch size are not changed. -/
theorem getNextBatch_contract (n b c : Nat) (_hn : 1 ≤ n) (_hb : 1 ≤ b)
    (hov : c + b < SIZE_T_MOD) :
    (c + b < n →
      getNextBatch ⟨n, c, b⟩ = (List.range' c b, ⟨n, c + b, b⟩)) ∧
    (¬ c + b < n →
      getNextBatch ⟨n, c, b⟩ = (List.range b, ⟨n, b, b⟩)) := by
  have hmod : (c + b) % SIZE_T_MOD = c + b := Nat.mod_eq_of_lt hov
  have hbmod : b % SIZE_T_MOD = b := Nat.mod_eq_of_lt (by omega)
  constructor
  · intro hlt
    have hnot : ¬ c + b ≥ n := by omega
    simp only [getNextBatch, hmod, hnot, if_false]
    rw [batchIndices_eq_range' c b (by omega)]
  · intro hge
    have hyes : c + b ≥ n := by omega
    simp only [getNextBatch, hmod, hyes, if_true, Nat.zero_add, hbmod]
    rw [batchIndices_eq_range' 0 b (by omega), List.range_eq_range']

/-- C1 (witness): the contract at `n = 10`, `b = 3`, `c = 9`, together with the evaluation of
the code there: the batch is `[0, 1, 2]` and the cursor becomes `3`. -/
theorem getNextBatch_contract_witness :
    (1 ≤ 10 ∧ 1 ≤ 3 ∧ 9 + 3 < SIZE_T_MOD) ∧
    ((9 + 3 < 10 →
      getNextBatch ⟨10, 9, 3⟩ = (List.range' 9 3, ⟨10, 9 + 3, 3⟩)) ∧
    (¬ 9 + 3 < 10 →
      getNextBatch ⟨10, 9, 3⟩ = (List.range 3, ⟨10, 3, 3⟩))) ∧
    getNextBatch ⟨10, 9, 3⟩ = ([0, 1, 2], ⟨10, 3, 3⟩) :=
  ⟨⟨by decide, by decide, by decide⟩,
   getNextBatch_contract 10 3 9 (by decide) (by decide) (by decide), by decide⟩

theorem nextSamples_prefix (n b k : Nat) (hn : n < SIZE_T_MOD) (hk : k ≤ n) :
    nextSamples k ⟨n, 0, b⟩ = (List.range k, ⟨n, k, b⟩) := by
  induction k with
  | zero => rfl
  | succ j ih =>
    have hj : ¬ j ≥ n := by omega
    have hmod : (j + 1) % SIZE_T_MOD = j + 1 := Nat.mod_eq_of_lt (by omega)
    simp only [nextSamples, ih (by omega), getNextSample, hj, if_false, hmod,
      List.range_succ]

/-- C2: with dataset size `n ≥ 1` (a `size_t` value) and cursor `0`, `n` successive calls of
`getNextSample` return the indices `0, 1, ..., n-1` in ascending order, and the `(n+1)`-th call
returns index `0` again. -/
theorem getNextSample_sweep (n b : Nat) (_hn : 1 ≤ n) (hsz : n < SIZE_T_MOD) :
    (nextSamples n ⟨n, 0, b⟩).1 = List.range n ∧
    (nextSamples (n + 1) ⟨n, 0, b⟩).1 = List.range n ++ [0] ∧
    (getNextSample (nextSamples n ⟨n, 0, b⟩).2).1 = 0 := by
  have h := nextSamples_prefix n b n hsz (le_refl n)
  refine ⟨by rw [h], ?_, ?_⟩
  · simp only [nextSamples, h, getNextSample, ge_iff_le, le_refl, if_true]
  · simp only [h, getNextSample, ge_iff_le, le_refl, if_true]

/-- C2 (witness): a dataset of three samples. -/
theorem getNextSample_sweep_witness :
    (1 ≤ 3 ∧ 3 < SIZE_T_MOD) ∧
    ((nextSamples 3 ⟨3, 0, 1⟩).1 = List.range 3 ∧
     (nextSamples (3 + 1) ⟨3, 0, 1⟩).1 = List.range 3 ++ [0] ∧
     (getNextSample (nextSamples 3 ⟨3, 0, 1⟩).2).1 = 0) :=
  ⟨⟨by decide, by decide⟩, getNextSample_sweep 3 1 (by decide) (by decide)⟩

/-- C3 (evaluation of the code at the failing input): with dataset size `4`, batch size `2`
and cursor `0` the dataset holds the two full batches `[0, 1]` and `[2, 3]`, but two successive
calls of `getNextBatch` return `[0, 1]` twice: the second call already restarts, because the
test `next_sample_index + batch_size >= size` fires at `2 + 2 >= 4`; `isLastBatch` reports the
batch `[0, 1]` as the last one. -/
theorem getNextBatch_skips_last_full_batch :
    (nextBatches 2 ⟨4, 0, 2⟩).1 = [[0, 1], [0, 1]] ∧
    (nextBatches 2 ⟨4, 0, 2⟩).1 ≠ [List.range' 0 2, List.range' 2 2] ∧
    isLastBatch (nextBatches 1 ⟨4, 0, 2⟩).2 = true := by
  decide

theorem mem_batchIndices (c b i : Nat) (h : c + b ≤ SIZE_T_MOD) :
    i ∈ batchIndices c b ↔ c ≤ i ∧ i < c + b := by
  rw [batchIndices_eq_range' c b h, List.mem_range']
  constructor
  · rintro ⟨k, hk, rfl⟩; omega
  · rintro ⟨h1, h2⟩; exact ⟨i - c, by omega, by omega⟩

/-- C4: for every dataset size `n`, batch size `b` and cursor `c` with `c + b` not overflowing,
all indices of the batch built by `getNextBatch` lie in `[0, n)` if and only if `b ≤ n`. -/
theorem getNextBatch_in_range_iff (n b c : Nat) (hov : c + b < SIZE_T_MOD) :
    (∀ i ∈ (getNextBatch ⟨n, c, b⟩).1, i < n) ↔ b ≤ n := by
  have hmod : (c + b) % SIZE_T_MOD = c + b := Nat.mod_eq_of_lt hov
  by_cases hlt : c + b < n
  · have hnot : ¬ c + b ≥ n := by omega
    simp only [getNextBatch, hmod, hnot, if_false]
    constructor
    · intro _; omega
    · intro _ i hi
      rw [mem_batchIndices c b i (by omega)] at hi
      omega
  · have hyes : c + b ≥ n := by omega
    simp only [getNextBatch, hmod, hyes, if_true]
    constructor
    · intro h
      by_contra hb
      have h0 : b - 1 ∈ batchIndices 0 b := by
        rw [mem_batchIndices 0 b (b - 1) (by omega)]; omega
      have := h (b - 1) h0
      omega
    · intro hb i hi
      rw [mem_batchIndices 0 b i (by omega)] at hi
      omega

/-- C4 (witness): cursor `9`, batch size `3`, dataset size `10`. -/
theorem getNextBatch_in_range_iff_witness :
    9 + 3 < SIZE_T_MOD ∧ ((∀ i ∈ (getNextBatch ⟨10, 9, 3⟩).1, i < 10) ↔ 3 ≤ 10) :=
  ⟨by decide, getNextBatch_in_range_iff 10 3 9 (by decide)⟩

/-- C5: with dataset size `n ≥ 1` (a `size_t` value) and any cursor value `c`, also one at or
beyond `n` as `setNextSampleIndex` can store it, `getNextSample` returns an index `i < n`, and
`isLastSample` called right afterwards returns `true` if and only if `i = n - 1`. -/
theorem getNextSample_isLastSample (n c b : Nat) (hn : 1 ≤ n) (hsz : n < SIZE_T_MOD) :
    (getNextSample (setNextSampleIndex ⟨n, 0, b⟩ c)).1 < n ∧
    (isLastSample (getNextSample (setNextSampleIndex ⟨n, 0, b⟩ c)).2 = true ↔
      (getNextSample (setNextSampleIndex ⟨n, 0, b⟩ c)).1 = n - 1) := by
  by_cases hc : c ≥ n
  · have h1 : (0 + 1) % SIZE_T_MOD = 1 := by rw [SIZE_T_MOD_eq]
    simp only [setNextSampleIndex, getNextSample, hc, if_true, isLastSample, h1,
      decide_eq_true_eq]
    omega
  · have h1 : (c + 1) % SIZE_T_MOD = c + 1 := Nat.mod_eq_of_lt (by omega)
    simp only [setNextSampleIndex, getNextSample, hc, if_false, isLastSample, h1,
      decide_eq_true_eq]
    omega

/-- C5 (witness): dataset size `3` with the cursor set to `7`. -/
theorem getNextSample_isLastSample_witness :
    (1 ≤ 3 ∧ 3 < SIZE_T_MOD) ∧
    ((getNextSample (setNextSampleIndex ⟨3, 0, 1⟩ 7)).1 < 3 ∧
     (isLastSample (getNextSample (setNextSampleIndex ⟨3, 0, 1⟩ 7)).2 = true ↔
       (getNextSample (setNextSampleIndex ⟨3, 0, 1⟩ 7)).1 = 3 - 1)) :=
  ⟨⟨by decide, by decide⟩, getNextSample_isLastSample 3 7 1 (by decide) (by decide)⟩

end Importer

/-! ## Auxiliary facts: loops over a buffer -/

/-- Invariant rule for the counted loop: an invariant that holds at the start and is carried by
every iteration (which then does not hit undefined behaviour) holds at the end, and the loop
produces a state. -/
theorem forFrom_inv {σ : Type} (body : Nat → σ → Option σ) (Inv : Nat → σ → Prop) :
    ∀ (k i : Nat) (s : σ), Inv i s →
      (∀ j t, i ≤ j → j < i + k → Inv j t → ∃ t', body j t = some t' ∧ Inv (j + 1) t') →
      ∃ s', forFrom body i k s = some s' ∧ Inv (i + k) s' := by
  intro k
  induction k with
  | zero => intro i s hs _; exact ⟨s, rfl, hs⟩
  | succ k ih =>
    intro i s hs hstep
    obtain ⟨t, ht, hinv⟩ := hstep i s (le_refl i) (by omega) hs
    obtain ⟨s', hs', hfin⟩ := ih (i + 1) t hinv
      (fun j u h1 h2 hu => hstep j u (by omega) (by omega) hu)
    refine ⟨s', ?_, ?_⟩
    · simp only [forFrom, ht, Option.some_bind]
      exact hs'
    · have : i + (k + 1) = i + 1 + k := by omega
      rw [this]; exact hfin

theorem forLoop_inv {σ : Type} (n : Nat) (body : Nat → σ → Option σ) (Inv : Nat → σ → Prop)
    (s : σ) (h0 : Inv 0 s)
    (hstep : ∀ j t, j < n → Inv j t → ∃ t', body j t = some t' ∧ Inv (j + 1) t') :
    ∃ s', forLoop n body s = some s' ∧ Inv n s' := by
  have h := forFrom_inv body Inv n 0 s h0 (fun j t _ h2 ht => hstep j t (by omega) ht)
  simpa [forLoop] using h

theorem Upd.init {α : Type} (old : List α) (tgt : Nat → Option α) : Upd old tgt 0 old :=
  ⟨rfl, fun k _ => by simp⟩

theorem Upd.read {α : Type} {old : List α} {tgt : Nat → Option α} {p : Nat} {d : List α}
    (h : Upd old tgt p d) (hp : p < old.length) : readAt d p = old[p]? := by
  have := h.2 p hp
  simpa [readAt] using this

theorem Upd.write {α : Type} {old : List α} {tgt : Nat → Option α} {p : Nat} {d : List α}
    (h : Upd old tgt p d) (hp : p < old.length) (v : α) (hv : tgt p = some v) :
    writeAt d p v = some (d.set p v) ∧ Upd old tgt (p + 1) (d.set p v) := by
  have hlen := h.1
  refine ⟨by simp [writeAt, hlen, hp], by simp [hlen], ?_⟩
  intro k hk
  by_cases hkp : k = p
  · subst hkp
    simp [hlen, hk, hv]
  · rw [List.getElem?_set_ne (Ne.symm hkp), h.2 k hk]
    by_cases hlt : k < p
    · simp [hlt, Nat.lt_succ_of_lt hlt]
    · have : ¬ k < p + 1 := by omega
      simp [hlt, this]

theorem Upd.final {α : Type} {old : List α} {tgt : Nat → Option α} {d : List α}
    (h : Upd old tgt old.length d) : d.length = old.length ∧ ∀ k, k < old.length → d[k]? = tgt k :=
  ⟨h.1, fun k hk => by simpa [hk] using h.2 k hk⟩

/-! ## `types::Matrix`: elementwise and broadcast operations -/

namespace Matrix

theorem index_lt {α : Type} (M : Matrix α) (hwf : M.WF) {y x : Nat} (hy : y < M.rows)
    (hx : x < M.cols) : y + x * M.rows < M.data.length := by
  have h1 : (x + 1) * M.rows ≤ M.cols * M.rows := Nat.mul_le_mul_right _ hx
  have h2 : (x + 1) * M.rows = x * M.rows + M.rows := Nat.succ_mul x M.rows
  have h3 : M.data.length = M.cols * M.rows := by rw [hwf, Nat.mul_comm]
  omega

theorem coeff_eq {α : Type} (M : Matrix α) {y x : Nat} (hy : y < M.rows) (hx : x < M.cols) :
    M.coeff y x = M.data[y + x * M.rows]? := by
  simp [coeff, readAt, hy, hx]

/-- Run of the nested loop: when every cell update turns a buffer that is up to date below
position `y + x * rows` into one that is up to date below the next position, the whole loop
produces a matrix of the same shape whose buffer holds the target values everywhere. -/
theorem forEachCell_run {α : Type} (M : Matrix α) (hwf : M.WF) (tgt : Nat → Option α)
    (cell : Nat → Nat → Matrix α → Option (Matrix α))
    (hcell : ∀ x y m, x < M.cols → y < M.rows → m.rows = M.rows → m.cols = M.cols →
      Upd M.data tgt (y + x * M.rows) m.data →
      ∃ m', cell x y m = some m' ∧ m'.rows = M.rows ∧ m'.cols = M.cols ∧
        Upd M.data tgt (y + x * M.rows + 1) m'.data) :
    ∃ M', forEachCell cell M = some M' ∧ M'.rows = M.rows ∧ M'.cols = M.cols ∧
      M'.data.length = M.data.length ∧ ∀ k, k < M.data.length → M'.data[k]? = tgt k := by
  obtain ⟨M', hrun, hr, hc, hupd⟩ :=
    forLoop_inv M.cols (fun x m => forLoop m.rows (cell x) m)
      (fun x m => m.rows = M.rows ∧ m.cols = M.cols ∧ Upd M.data tgt (x * M.rows) m.data)
      M ⟨rfl, rfl, by simpa using Upd.init M.data tgt⟩
      (by
        intro x m hx ⟨hr, hc, hupd⟩
        obtain ⟨m', hrun, hr', hc', hupd'⟩ :=
          forLoop_inv m.rows (cell x)
            (fun y t => t.rows = M.rows ∧ t.cols = M.cols ∧
              Upd M.data tgt (y + x * M.rows) t.data)
            m ⟨hr, hc, by simpa using hupd⟩
            (by
              intro y t hy ⟨hr1, hc1, hupd1⟩
              obtain ⟨t', ht', hr2, hc2, hupd2⟩ :=
                hcell x y t hx (by omega) hr1 hc1 hupd1
              refine ⟨t', ht', hr2, hc2, ?_⟩
              have : y + 1 + x * M.rows = y + x * M.rows + 1 := by omega
              rw [this]; exact hupd2)
        refine ⟨m', hrun, hr', hc', ?_⟩
        have : (x + 1) * M.rows = m.rows + x * M.rows := by rw [hr, Nat.succ_mul]; omega
        rw [this]; exact hupd')
  have hlen : M.cols * M.rows = M.data.length := by rw [hwf, Nat.mul_comm]
  rw [hlen] at hupd
  exact ⟨M', hrun, hr, hc, hupd.final.1, hupd.final.2⟩

/-- A cell update that reads `(y, x)`, combines it with `c` and writes the result back. -/
theorem cell_update {α : Type} (M : Matrix α) (hwf : M.WF) (tgt : Nat → Option α)
    {x y : Nat} {m : Matrix α} (hx : x < M.cols) (hy : y < M.rows) (hr : m.rows = M.rows)
    (hc : m.cols = M.cols) (hupd : Upd M.data tgt (y + x * M.rows) m.data) (g : α → α)
    (htgt : tgt (y + x * M.rows) = (M.data[y + x * M.rows]?).map g) :
    ∃ e, m.coeff y x = some e ∧ M.data[y + x * M.rows]? = some e ∧
      ∃ m', m.setCoeff y x (g e) = some m' ∧ m'.rows = M.rows ∧ m'.cols = M.cols ∧
        Upd M.data tgt (y + x * M.rows + 1) m'.data := by
  have hk := index_lt M hwf hy hx
  have hread : m.coeff y x = some (M.data[y + x * M.rows]) := by
    rw [coeff_eq m (by omega) (by omega), hr]
    have := hupd.read hk
    simpa [readAt, hk] using this
  refine ⟨M.data[y + x * M.rows], hread, by simp [hk], ?_⟩
  obtain ⟨hw, hupd'⟩ := hupd.write hk (g (M.data[y + x * M.rows])) (by rw [htgt]; simp [hk])
  refine ⟨{ m with data := m.data.set (y + x * M.rows) (g (M.data[y + x * M.rows])) },
    ?_, hr, hc, hupd'⟩
  have hx' : x < m.cols := by omega
  simp only [setCoeff, hr, hw, hy, hx', and_self, if_true, Option.map_some']

/-- Run of the loop of `elementwiseFunctionMatrix` when the operand's buffer is at least as long
as the receiver's: the operand's buffer is not changed and position `k` of the receiver's
buffer ends as `func(data[k], m_data[k])`. -/
theorem elementwiseFunctionMatrix_loop {α : Type} (func : α → α → α) (M O : Matrix α)
    (hwf : M.WF) (hlen : M.data.length ≤ O.data.length) :
    ∃ d, forLoop (M.rows * M.cols) (elementwiseFunctionMatrixStep func) (M.data, O.data) =
        some (d, O.data) ∧
      d.length = M.data.length ∧
      ∀ k, k < M.data.length →
        d[k]? = (M.data[k]?).bind (fun e => (O.data[k]?).map (func e)) := by
  obtain ⟨st, hrun, hst, hupd⟩ :=
    forLoop_inv (M.rows * M.cols) (elementwiseFunctionMatrixStep func)
      (fun i st => st.2 = O.data ∧
        Upd M.data (fun k => (M.data[k]?).bind (fun e => (O.data[k]?).map (func e))) i st.1)
      (M.data, O.data) ⟨rfl, Upd.init _ _⟩
      (by
        intro j st hj ⟨hst, hupd⟩
        have hjM : j < M.data.length := by rw [hwf]; exact hj
        have hjO : j < O.data.length := by omega
        have hread : readAt st.1 j = some (M.data[j]) := by
          rw [hupd.read hjM]; simp [hjM]
        have hreadO : readAt st.2 j = some (O.data[j]) := by
          rw [hst]; simp [readAt, hjO]
        obtain ⟨hw, hupd'⟩ := hupd.write hjM (func (M.data[j]) (O.data[j])) (by simp [hjM, hjO])
        refine ⟨(st.1.set j (func (M.data[j]) (O.data[j])), st.2), ?_, hst, hupd'⟩
        simp only [elementwiseFunctionMatrixStep, hread, hreadO, Option.some_bind, hw,
          Option.map_some'])
  rw [← hwf] at hupd
  refine ⟨st.1, ?_, hupd.final.1, hupd.final.2⟩
  rw [hrun, ← hst]

end Matrix

namespace Matrix

/-- Run of the loop of `elementwiseFunctionMatrix` with the receiver itself as operand:
position `k` of the one buffer ends as `func(data[k], data[k])`. -/
theorem elementwiseFunctionMatrixSelf_loop {α : Type} (func : α → α → α) (M : Matrix α)
    (hwf : M.WF) :
    ∃ d, forLoop (M.rows * M.cols) (elementwiseFunctionMatrixSelfStep func) M.data = some d ∧
      d.length = M.data.length ∧
      ∀ k, k < M.data.length → d[k]? = (M.data[k]?).map (fun e => func e e) := by
  obtain ⟨d, hrun, hupd⟩ :=
    forLoop_inv (M.rows * M.cols) (elementwiseFunctionMatrixSelfStep func)
      (fun i d => Upd M.data (fun k => (M.data[k]?).map (fun e => func e e)) i d)
      M.data (Upd.init _ _)
      (by
        intro j d hj hupd
        have hjM : j < M.data.length := by rw [hwf]; exact hj
        have hread : readAt d j = some (M.data[j]) := by
          rw [hupd.read hjM]; simp [hjM]
        obtain ⟨hw, hupd'⟩ := hupd.write hjM (func (M.data[j]) (M.data[j])) (by simp [hjM])
        refine ⟨d.set j (func (M.data[j]) (M.data[j])), ?_, hupd'⟩
        simp only [elementwiseFunctionMatrixSelfStep, hread, Option.some_bind, hw])
  rw [← hwf] at hupd
  exact ⟨d, hrun, hupd.final.1, hupd.final.2⟩

end Matrix

/-- C8 (amended claim): for every matrix `M` and every binary function `func`, a call
`M.elementwiseFunctionMatrix(func, other)` with an operand `other` that is an object different
from `M` and has the same row and column counts prints nothing, runs through, keeps the shape
of `M`, leaves `other` as it was and leaves `M'(i, j) = func(M(i, j), other(i, j))` in every
cell; the call with `M` itself as operand leaves `M'(i, j) = func(M(i, j), M(i, j))` in every
cell, the operand being `M'` as well. -/
theorem elementwiseFunctionMatrix_spec {α : Type} (func : α → α → α) (M other : Matrix α)
    (hM : M.WF) (hO : other.WF) (hr : other.rows = M.rows) (hc : other.cols = M.cols) :
    (∃ M', M.elementwiseFunctionMatrixCall func (.object other) = ([], some (M', other)) ∧
      M'.rows = M.rows ∧ M'.cols = M.cols ∧
      ∀ i j, i < M.rows → j < M.cols →
        ∃ a b, M.coeff i j = some a ∧ other.coeff i j = some b ∧
          M'.coeff i j = some (func a b)) ∧
    (∃ M', M.elementwiseFunctionMatrixCall func .receiver = ([], some (M', M')) ∧
      M'.rows = M.rows ∧ M'.cols = M.cols ∧
      ∀ i j, i < M.rows → j < M.cols →
        ∃ a, M.coeff i j = some a ∧ M'.coeff i j = some (func a a)) := by
  constructor
  · have hlen : M.data.length = other.data.length := by rw [hM, hO, hr, hc]
    obtain ⟨d, hrun, hd, hval⟩ :=
      Matrix.elementwiseFunctionMatrix_loop func M other hM (by omega)
    refine ⟨{ M with data := d }, ?_, rfl, rfl, ?_⟩
    · have hno : ¬ (M.rows ≠ other.rows ∨ M.cols ≠ other.cols) := by
        rw [hr, hc]; simp
      simp only [Matrix.elementwiseFunctionMatrixCall, Matrix.elementwiseFunctionMatrix, hno,
        if_false, hrun, Option.map_some']
    · intro i j hi hj
      have hk := Matrix.index_lt M hM hi hj
      have hkO : i + j * M.rows < other.data.length := by omega
      refine ⟨M.data[i + j * M.rows], other.data[i + j * M.rows], ?_, ?_, ?_⟩
      · rw [Matrix.coeff_eq M hi hj]; simp [hk]
      · rw [Matrix.coeff_eq other (by omega) (by omega), hr]; simp [hkO]
      · have h1 : ({ M with data := d } : Matrix α).coeff i j = d[i + j * M.rows]? := by
          simp [Matrix.coeff, readAt, hi, hj]
        rw [h1, hval _ hk]
        simp [hk, hkO]
  · obtain ⟨d, hrun, hd, hval⟩ := Matrix.elementwiseFunctionMatrixSelf_loop func M hM
    refine ⟨{ M with data := d }, ?_, rfl, rfl, ?_⟩
    · simp only [Matrix.elementwiseFunctionMatrixCall, ne_eq, not_true_eq_false, or_self,
        if_false, hrun, Option.map_some']
    · intro i j hi hj
      have hk := Matrix.index_lt M hM hi hj
      refine ⟨M.data[i + j * M.rows], ?_, ?_⟩
      · rw [Matrix.coeff_eq M hi hj]; simp [hk]
      · have h1 : ({ M with data := d } : Matrix α).coeff i j = d[i + j * M.rows]? := by
          simp [Matrix.coeff, readAt, hi, hj]
        rw [h1, hval _ hk]
        simp [hk]

/-- C8 (witness): a `2 x 2` receiver with a `2 x 2` operand, and with itself as operand,
combined with addition. -/
theorem elementwiseFunctionMatrix_spec_witness :
    ((⟨2, 2, [1, 2, 3, 4]⟩ : Matrix Int).WF ∧ (⟨2, 2, [10, 20, 30, 40]⟩ : Matrix Int).WF ∧
      (2 : Nat) = 2 ∧ (2 : Nat) = 2) ∧
    ((∃ M', Matrix.elementwiseFunctionMatrixCall (fun a b : Int => a + b) ⟨2, 2, [1, 2, 3, 4]⟩
        (.object ⟨2, 2, [10, 20, 30, 40]⟩) = ([], some (M', ⟨2, 2, [10, 20, 30, 40]⟩)) ∧
      M'.rows = 2 ∧ M'.cols = 2 ∧
      ∀ i j, i < 2 → j < 2 →
        ∃ a b, (⟨2, 2, [1, 2, 3, 4]⟩ : Matrix Int).coeff i j = some a ∧
          (⟨2, 2, [10, 20, 30, 40]⟩ : Matrix Int).coeff i j = some b ∧
          M'.coeff i j = some (a + b)) ∧
    (∃ M', Matrix.elementwiseFunctionMatrixCall (fun a b : Int => a + b) ⟨2, 2, [1, 2, 3, 4]⟩
        .receiver = ([], some (M', M')) ∧
      M'.rows = 2 ∧ M'.cols = 2 ∧
      ∀ i j, i < 2 → j < 2 →
        ∃ a, (⟨2, 2, [1, 2, 3, 4]⟩ : Matrix Int).coeff i j = some a ∧
          M'.coeff i j = some (a + a))) :=
  ⟨⟨by decide, by decide, rfl, rfl⟩,
   elementwiseFunctionMatrix_spec (fun a b : Int => a + b) ⟨2, 2, [1, 2, 3, 4]⟩
     ⟨2, 2, [10, 20, 30, 40]⟩ (by decide) (by decide) rfl rfl⟩

/-- C8 (counterexample to the claim for every operand): the call `M.elementwiseFunctionMatrix
(func, M)` with the `2 x 2` matrix `M` of buffer `[1, 2, 3, 4]` as its own operand and addition
prints nothing and leaves `[2, 4, 6, 8]` in the one object: the operand, which has the row and
column counts of the receiver, is not unchanged. -/
theorem elementwiseFunctionMatrix_alias :
    Matrix.elementwiseFunctionMatrixCall (fun a b : Int => a + b) ⟨2, 2, [1, 2, 3, 4]⟩
        .receiver = ([], some (⟨2, 2, [2, 4, 6, 8]⟩, ⟨2, 2, [2, 4, 6, 8]⟩)) ∧
    (⟨2, 2, [2, 4, 6, 8]⟩ : Matrix Int) ≠ ⟨2, 2, [1, 2, 3, 4]⟩ := by
  decide

/-- C9 (evaluation of the code at the failing input): with a `2 x 2` receiver and a `3 x 3`
operand the call prints the mismatch message and then runs the loop all the same, overwriting
the four elements of the receiver with sums taken from the first four elements of the
operand's buffer; with a `3 x 3` receiver and a `2 x 2` operand it prints the message and then
reads the operand's buffer beyond its end. -/
theorem elementwiseFunctionMatrix_mismatch_proceeds :
    Matrix.elementwiseFunctionMatrix (fun a b : Int => a + b) ⟨2, 2, [1, 2, 3, 4]⟩
        ⟨3, 3, [10, 20, 30, 40, 50, 60, 70, 80, 90]⟩ =
      (["elementwiseFunctionMatrix: dimensions mismatch!\n"],
       some (⟨2, 2, [11, 22, 33, 44]⟩, ⟨3, 3, [10, 20, 30, 40, 50, 60, 70, 80, 90]⟩)) ∧
    Matrix.elementwiseFunctionMatrix (fun a b : Int => a + b)
        ⟨3, 3, [10, 20, 30, 40, 50, 60, 70, 80, 90]⟩ ⟨2, 2, [1, 2, 3, 4]⟩ =
      (["elementwiseFunctionMatrix: dimensions mismatch!\n"], none) := by
  decide

namespace Matrix

/-- Run of a broadcast loop whose cell update combines `(y, x)` with component `sel x y` of the
vector: every component index used lies inside the vector, so the loop runs through and cell
`(y, x)` ends as `func(M(y, x), v(sel x y))`. -/
theorem broadcast_run {α : Type} (func : α → α → α) (M : Matrix α) (v : VectorX α)
    (hwf : M.WF) (sel : Nat → Nat → Nat)
    (hsel : ∀ x y, x < M.cols → y < M.rows → sel x y < v.data.length) :
    ∃ M', forEachCell (fun x y m => (m.coeff y x).bind (fun e =>
          (v.coeff (sel x y)).bind (fun c => m.setCoeff y x (func e c)))) M = some M' ∧
      M'.rows = M.rows ∧ M'.cols = M.cols ∧
      ∀ y x, y < M.rows → x < M.cols →
        ∃ a c, M.coeff y x = some a ∧ v.coeff (sel x y) = some c ∧
          M'.coeff y x = some (func a c) := by
  obtain ⟨M', hrun, hr, hc, _, hval⟩ :=
    forEachCell_run M hwf
      (fun k => (M.data[k]?).bind (fun e =>
        (v.data[sel (k / M.rows) (k % M.rows)]?).map (func e)))
      (fun x y m => (m.coeff y x).bind (fun e =>
          (v.coeff (sel x y)).bind (fun c => m.setCoeff y x (func e c))))
      (by
        intro x y m hx hy hr hc hupd
        have hs := hsel x y hx hy
        have hdiv : (y + x * M.rows) / M.rows = x := by
          rw [Nat.add_mul_div_right _ _ (by omega), Nat.div_eq_of_lt hy, Nat.zero_add]
        have hmod : (y + x * M.rows) % M.rows = y := by
          rw [Nat.add_mul_mod_self_right, Nat.mod_eq_of_lt hy]
        have hv : v.coeff (sel x y) = some (v.data[sel x y]) := by
          simp [VectorX.coeff, readAt, hs]
        obtain ⟨e, he, _, m', hm', hr', hc', hupd'⟩ :=
          cell_update M hwf _ hx hy hr hc hupd (fun e => func e (v.data[sel x y]))
            (by simp only [hdiv, hmod]
                cases M.data[y + x * M.rows]? <;> simp [hs])
        refine ⟨m', ?_, hr', hc', hupd'⟩
        simp only [he, hv, Option.some_bind, hm'])
  refine ⟨M', hrun, hr, hc, ?_⟩
  intro y x hy hx
  have hk := index_lt M hwf hy hx
  have hs := hsel x y hx hy
  have hdiv : (y + x * M.rows) / M.rows = x := by
    rw [Nat.add_mul_div_right _ _ (by omega), Nat.div_eq_of_lt hy, Nat.zero_add]
  have hmod : (y + x * M.rows) % M.rows = y := by
    rw [Nat.add_mul_mod_self_right, Nat.mod_eq_of_lt hy]
  refine ⟨M.data[y + x * M.rows], v.data[sel x y], ?_, ?_, ?_⟩
  · rw [coeff_eq M hy hx]; simp [hk]
  · simp [VectorX.coeff, readAt, hs]
  · rw [coeff_eq M' (by omega) (by omega), hr, hval _ hk, hdiv, hmod]
    simp [hk, hs]

end Matrix

/-- C10: for every `m x n` matrix `M` and binary function `func`,
`matrixColumnVectorFunction(func, vc)` with `vc` of length `m` runs through, keeps the shape and
leaves `M'(y, x) = func(M(y, x), vc(y))` in every cell, and `matrixRowVectorFunction(func, vr)`
with `vr` of length `n` runs through, keeps the shape and leaves
`M'(y, x) = func(M(y, x), vr(x))` in every cell. -/
theorem vectorFunction_broadcast {α : Type} (func : α → α → α) (M : Matrix α)
    (vc vr : VectorX α) (hM : M.WF) (hvc : vc.rows = M.rows) (hvr : vr.rows = M.cols) :
    (∃ M', (Matrix.matrixColumnVectorFunction func M vc).2 = some M' ∧
      M'.rows = M.rows ∧ M'.cols = M.cols ∧
      ∀ y x, y < M.rows → x < M.cols →
        ∃ a c, M.coeff y x = some a ∧ vc.coeff y = some c ∧
          M'.coeff y x = some (func a c)) ∧
    (∃ M', (Matrix.matrixRowVectorFunction func M vr).2 = some M' ∧
      M'.rows = M.rows ∧ M'.cols = M.cols ∧
      ∀ y x, y < M.rows → x < M.cols →
        ∃ a c, M.coeff y x = some a ∧ vr.coeff x = some c ∧
          M'.coeff y x = some (func a c)) := by
  constructor
  · exact Matrix.broadcast_run func M vc hM (fun _ y => y)
      (fun x y _ hy => by
        show y < vc.data.length
        unfold VectorX.rows at hvc; omega)
  · exact Matrix.broadcast_run func M vr hM (fun x _ => x)
      (fun x y hx _ => by
        show x < vr.data.length
        unfold VectorX.rows at hvr; omega)

/-- C10 (witness): a `2 x 3` matrix with a vector of length `2` (column broadcast) and one of
length `3` (row broadcast), combined with addition. -/
theorem vectorFunction_broadcast_witness :
    ((⟨2, 3, [1, 2, 3, 4, 5, 6]⟩ : Matrix Int).WF ∧
      (⟨[10, 20]⟩ : VectorX Int).rows = 2 ∧ (⟨[10, 20, 30]⟩ : VectorX Int).rows = 3) ∧
    ((∃ M', (Matrix.matrixColumnVectorFunction (fun a b : Int => a + b)
          ⟨2, 3, [1, 2, 3, 4, 5, 6]⟩ ⟨[10, 20]⟩).2 = some M' ∧
      M'.rows = 2 ∧ M'.cols = 3 ∧
      ∀ y x, y < 2 → x < 3 →
        ∃ a c, (⟨2, 3, [1, 2, 3, 4, 5, 6]⟩ : Matrix Int).coeff y x = some a ∧
          (⟨[10, 20]⟩ : VectorX Int).coeff y = some c ∧ M'.coeff y x = some (a + c)) ∧
    (∃ M', (Matrix.matrixRowVectorFunction (fun a b : Int => a + b)
          ⟨2, 3, [1, 2, 3, 4, 5, 6]⟩ ⟨[10, 20, 30]⟩).2 = some M' ∧
      M'.rows = 2 ∧ M'.cols = 3 ∧
      ∀ y x, y < 2 → x < 3 →
        ∃ a c, (⟨2, 3, [1, 2, 3, 4, 5, 6]⟩ : Matrix Int).coeff y x = some a ∧
          (⟨[10, 20, 30]⟩ : VectorX Int).coeff x = some c ∧ M'.coeff y x = some (a + c))) :=
  ⟨⟨by decide, by decide, by decide⟩,
   vectorFunction_broadcast (fun a b : Int => a + b) ⟨2, 3, [1, 2, 3, 4, 5, 6]⟩
     ⟨[10, 20]⟩ ⟨[10, 20, 30]⟩ (by decide) (by decide) (by decide)⟩

/-- C11 (evaluation of the code at the failing inputs): the check of
`matrixColumnVectorFunction` compares the row count with `v_.cols()`, which is `1` for every
`VectorX`, so a `2 x 3` matrix with a vector of length `2` is reported as a mismatch and a
`1 x 2` matrix with a vector of length `3` is not; `matrixRowVectorFunction` compares the
column count with `v_.cols()`, so a `2 x 3` matrix with a vector of length `3` is reported and
a `2 x 1` matrix with a vector of length `3` is not.  In general the first reports exactly when
the row count is not `1`, the second exactly when the column count is not `1`. -/
theorem vectorFunction_check_compares_with_one :
    (Matrix.matrixColumnVectorFunction (fun a b : Int => a + b) ⟨2, 3, [1, 2, 3, 4, 5, 6]⟩
        ⟨[10, 20]⟩).1 = ["matrixColumnVectorFunction: dimensions mismatch\n"] ∧
    (Matrix.matrixColumnVectorFunction (fun a b : Int => a + b) ⟨1, 2, [1, 2]⟩
        ⟨[10, 20, 30]⟩).1 = [] ∧
    (Matrix.matrixRowVectorFunction (fun a b : Int => a + b) ⟨2, 3, [1, 2, 3, 4, 5, 6]⟩
        ⟨[10, 20, 30]⟩).1 = ["matrixRowVectorFunction: dimensions mismatch\n"] ∧
    (Matrix.matrixRowVectorFunction (fun a b : Int => a + b) ⟨2, 1, [1, 2]⟩
        ⟨[10, 20, 30]⟩).1 = [] ∧
    (∀ (func : Int → Int → Int) (M : Matrix Int) (v : VectorX Int),
      ((Matrix.matrixColumnVectorFunction func M v).1 ≠ [] ↔ M.rows ≠ 1) ∧
      ((Matrix.matrixRowVectorFunction func M v).1 ≠ [] ↔ M.cols ≠ 1)) := by
  refine ⟨by decide, by decide, by decide, by decide, ?_⟩
  intro func M v
  constructor
  · by_cases h : M.rows = 1 <;>
      simp [Matrix.matrixColumnVectorFunction, VectorX.cols, h]
  · by_cases h : M.cols = 1 <;>
      simp [Matrix.matrixRowVectorFunction, VectorX.cols, h]

namespace Matrix

/-- Run of the loop of `elementwiseFunction`: position `k` of the buffer ends as
`func(data[k])`. -/
theorem elementwiseFunction_run {α : Type} (func : α → α) (M : Matrix α) (hwf : M.WF) :
    ∃ M', elementwiseFunction func M = some M' ∧ M'.rows = M.rows ∧ M'.cols = M.cols ∧
      M'.data.length = M.data.length ∧
      ∀ k, k < M.data.length → M'.data[k]? = (M.data[k]?).map func := by
  obtain ⟨d, hrun, hupd⟩ :=
    forLoop_inv (M.rows * M.cols)
      (fun i data_ptr => (readAt data_ptr i).bind (fun e => writeAt data_ptr i (func e)))
      (fun i d => Upd M.data (fun k => (M.data[k]?).map func) i d)
      M.data (Upd.init _ _)
      (by
        intro j d hj hupd
        have hjM : j < M.data.length := by rw [hwf]; exact hj
        have hread : readAt d j = some (M.data[j]) := by
          rw [hupd.read hjM]; simp [hjM]
        obtain ⟨hw, hupd'⟩ := hupd.write hjM (func (M.data[j])) (by simp [hjM])
        refine ⟨d.set j (func (M.data[j])), ?_, hupd'⟩
        simp only [hread, Option.some_bind, hw])
  rw [← hwf] at hupd
  refine ⟨{ M with data := d }, ?_, rfl, rfl, hupd.final.1, hupd.final.2⟩
  simp only [elementwiseFunction, hrun, Option.map_some']

/-- Run of `repeatVector` with a vector of as many components as the matrix has rows: the
buffer ends with component `k mod rows` of the vector at position `k`. -/
theorem repeatVector_run {α : Type} (M : Matrix α) (v : VectorX α) (hwf : M.WF)
    (hv : v.data.length = M.rows) :
    ∃ M', repeatVector M v = some M' ∧ M'.rows = M.rows ∧ M'.cols = M.cols ∧
      M'.data.length = M.data.length ∧
      ∀ k, k < M.data.length → M'.data[k]? = v.data[k % M.rows]? := by
  apply forEachCell_run M hwf (fun k => v.data[k % M.rows]?) (repeatVectorCell v)
  intro x y m hx hy hr hc hupd
  have hyv : y < v.data.length := by omega
  have hmod : (y + x * M.rows) % M.rows = y := by
    rw [Nat.add_mul_mod_self_right, Nat.mod_eq_of_lt hy]
  have hk := index_lt M hwf hy hx
  obtain ⟨e, _, _, m', hm', hr', hc', hupd'⟩ :=
    cell_update M hwf _ hx hy hr hc hupd (fun _ => v.data[y])
      (by simp only [hmod]; simp [hk, hyv])
  refine ⟨m', ?_, hr', hc', hupd'⟩
  have hvc : v.coeff y = some (v.data[y]) := by simp [VectorX.coeff, readAt, hyv]
  simp only [repeatVectorCell, hvc, Option.some_bind]
  exact hm'

end Matrix

/-- C12: for every `m x n` matrix `M` and every vector `v` of length `m`, `M.repeatVector(v)`
runs through, keeps the shape and leaves `M'(y, x) = v(y)` in every cell, so every column
equals `v`; a second call `repeatVector(v)` on the result returns the same matrix. -/
theorem repeatVector_columns {α : Type} (M : Matrix α) (v : VectorX α) (hM : M.WF)
    (hv : v.rows = M.rows) :
    ∃ M', M.repeatVector v = some M' ∧ M'.rows = M.rows ∧ M'.cols = M.cols ∧
      (∀ y x, y < M.rows → x < M.cols →
        ∃ c, v.coeff y = some c ∧ M'.coeff y x = some c) ∧
      M'.repeatVector v = some M' := by
  obtain ⟨M', hrun, hr, hc, hlen, hval⟩ := Matrix.repeatVector_run M v hM hv
  have hM' : M'.WF := by
    unfold Matrix.WF at hM ⊢
    rw [hlen, hr, hc, hM]
  refine ⟨M', hrun, hr, hc, ?_, ?_⟩
  · intro y x hy hx
    have hk := Matrix.index_lt M hM hy hx
    have hyv : y < v.data.length := by unfold VectorX.rows at hv; omega
    have hmod : (y + x * M.rows) % M.rows = y := by
      rw [Nat.add_mul_mod_self_right, Nat.mod_eq_of_lt hy]
    refine ⟨v.data[y], by simp [VectorX.coeff, readAt, hyv], ?_⟩
    rw [Matrix.coeff_eq M' (by omega) (by omega), hr, hval _ hk, hmod]
    simp [hyv]
  · obtain ⟨M'', hrun2, hr2, hc2, hlen2, hval2⟩ :=
      Matrix.repeatVector_run M' v hM' (by rw [hr]; exact hv)
    have hdata : M''.data = M'.data := by
      apply List.ext_getElem?
      intro k
      by_cases hk : k < M'.data.length
      · rw [hval2 k hk, hr, hval k (by omega)]
      · rw [List.getElem?_eq_none (by omega), List.getElem?_eq_none (by omega)]
    have heq : M'' = M' := by
      cases M''; cases M'; simp_all
    rw [hrun2, heq]

/-- C12 (witness): a `2 x 3` matrix and a vector of length `2`. -/
theorem repeatVector_columns_witness :
    ((⟨2, 3, [1, 2, 3, 4, 5, 6]⟩ : Matrix Int).WF ∧ (⟨[10, 20]⟩ : VectorX Int).rows = 2) ∧
    ∃ M', (⟨2, 3, [1, 2, 3, 4, 5, 6]⟩ : Matrix Int).repeatVector ⟨[10, 20]⟩ = some M' ∧
      M'.rows = 2 ∧ M'.cols = 3 ∧
      (∀ y x, y < 2 → x < 3 →
        ∃ c, (⟨[10, 20]⟩ : VectorX Int).coeff y = some c ∧ M'.coeff y x = some c) ∧
      M'.repeatVector ⟨[10, 20]⟩ = some M' :=
  ⟨⟨by decide, by decide⟩,
   repeatVector_columns ⟨2, 3, [1, 2, 3, 4, 5, 6]⟩ ⟨[10, 20]⟩ (by decide) (by decide)⟩

/-- C13: for every matrix `M` and unary function `f`, `M.elementwiseFunction(f)` runs through,
keeps the shape and leaves `M'(i, j) = f(M(i, j))` in every cell; and for every binary `g` and
scalar `s`, `M.elementwiseFunctionScalar(g, s)` gives the same result as `elementwiseFunction`
with the unary function `e -> g(e, s)`, so it leaves `g(M(i, j), s)` in every cell. -/
theorem elementwiseFunction_spec {α : Type} (f : α → α) (g : α → α → α) (s : α)
    (M : Matrix α) (hM : M.WF) :
    (∃ M', M.elementwiseFunction f = some M' ∧ M'.rows = M.rows ∧ M'.cols = M.cols ∧
      ∀ i j, i < M.rows → j < M.cols →
        ∃ a, M.coeff i j = some a ∧ M'.coeff i j = some (f a)) ∧
    M.elementwiseFunctionScalar g s = M.elementwiseFunction (fun e => g e s) ∧
    (∃ M', M.elementwiseFunctionScalar g s = some M' ∧ M'.rows = M.rows ∧ M'.cols = M.cols ∧
      ∀ i j, i < M.rows → j < M.cols →
        ∃ a, M.coeff i j = some a ∧ M'.coeff i j = some (g a s)) := by
  have key : ∀ h : α → α,
      ∃ M', M.elementwiseFunction h = some M' ∧ M'.rows = M.rows ∧ M'.cols = M.cols ∧
        ∀ i j, i < M.rows → j < M.cols →
          ∃ a, M.coeff i j = some a ∧ M'.coeff i j = some (h a) := by
    intro h
    obtain ⟨M', hrun, hr, hc, _, hval⟩ := Matrix.elementwiseFunction_run h M hM
    refine ⟨M', hrun, hr, hc, ?_⟩
    intro i j hi hj
    have hk := Matrix.index_lt M hM hi hj
    refine ⟨M.data[i + j * M.rows], ?_, ?_⟩
    · rw [Matrix.coeff_eq M hi hj]; simp [hk]
    · rw [Matrix.coeff_eq M' (by omega) (by omega), hr, hval _ hk]
      simp [hk]
  have hsame : M.elementwiseFunctionScalar g s = M.elementwiseFunction (fun e => g e s) := rfl
  refine ⟨key f, hsame, ?_⟩
  rw [hsame]
  exact key (fun e => g e s)

/-- C13 (witness): a `2 x 2` integer matrix, negation and addition of the scalar `5`. -/
theorem elementwiseFunction_spec_witness :
    (⟨2, 2, [1, 2, 3, 4]⟩ : Matrix Int).WF ∧
    ((∃ M', (⟨2, 2, [1, 2, 3, 4]⟩ : Matrix Int).elementwiseFunction (fun e => -e) = some M' ∧
      M'.rows = 2 ∧ M'.cols = 2 ∧
      ∀ i j, i < 2 → j < 2 →
        ∃ a, (⟨2, 2, [1, 2, 3, 4]⟩ : Matrix Int).coeff i j = some a ∧
          M'.coeff i j = some (-a)) ∧
    (⟨2, 2, [1, 2, 3, 4]⟩ : Matrix Int).elementwiseFunctionScalar (fun a b => a + b) 5 =
      (⟨2, 2, [1, 2, 3, 4]⟩ : Matrix Int).elementwiseFunction (fun e => e + 5) ∧
    (∃ M', (⟨2, 2, [1, 2, 3, 4]⟩ : Matrix Int).elementwiseFunctionScalar
        (fun a b => a + b) 5 = some M' ∧ M'.rows = 2 ∧ M'.cols = 2 ∧
      ∀ i j, i < 2 → j < 2 →
        ∃ a, (⟨2, 2, [1, 2, 3, 4]⟩ : Matrix Int).coeff i j = some a ∧
          M'.coeff i j = some (a + 5))) :=
  ⟨by decide,
   elementwiseFunction_spec (fun e : Int => -e) (fun a b : Int => a + b) 5
     ⟨2, 2, [1, 2, 3, 4]⟩ (by decide)⟩

/-! ## Shape preservation -/

/-- A property carried by every iteration that produces a state is carried by the loop. -/
theorem forFrom_preserves {σ : Type} (body : Nat → σ → Option σ) (P : σ → Prop)
    (hbody : ∀ i s s', body i s = some s' → P s → P s') :
    ∀ (k i : Nat) (s s' : σ), forFrom body i k s = some s' → P s → P s' := by
  intro k
  induction k with
  | zero =>
    intro i s s' h hs
    simp only [forFrom, Option.some.injEq] at h
    rw [← h]; exact hs
  | succ k ih =>
    intro i s s' h hs
    simp only [forFrom] at h
    cases hb : body i s with
    | none => rw [hb] at h; simp at h
    | some t =>
      rw [hb] at h
      exact ih (i + 1) t s' h (hbody i s t hb hs)

namespace Matrix

theorem setCoeff_shape {α : Type} {m m' : Matrix α} {y x : Nat} {v : α}
    (h : m.setCoeff y x v = some m') :
    m'.rows = m.rows ∧ m'.cols = m.cols ∧ m'.data.length = m.data.length := by
  unfold setCoeff at h
  split at h
  · unfold writeAt at h
    split at h
    · simp only [Option.map_some', Option.some.injEq] at h
      subst h
      simp
    · simp at h
  · simp at h

/-- The nested loop keeps row count, column count and buffer length when every cell update
does. -/
theorem forEachCell_shape {α : Type} (cell : Nat → Nat → Matrix α → Option (Matrix α))
    (hcell : ∀ x y m m', cell x y m = some m' →
      m'.rows = m.rows ∧ m'.cols = m.cols ∧ m'.data.length = m.data.length)
    (M M' : Matrix α) (h : forEachCell cell M = some M') :
    M'.rows = M.rows ∧ M'.cols = M.cols ∧ M'.data.length = M.data.length := by
  have inner : ∀ x m m', forLoop m.rows (cell x) m = some m' →
      (m.rows = M.rows ∧ m.cols = M.cols ∧ m.data.length = M.data.length) →
      (m'.rows = M.rows ∧ m'.cols = M.cols ∧ m'.data.length = M.data.length) := by
    intro x m m' hrun hm
    exact forFrom_preserves (cell x)
      (fun t => t.rows = M.rows ∧ t.cols = M.cols ∧ t.data.length = M.data.length)
      (fun y t t' ht hP => by
        obtain ⟨h1, h2, h3⟩ := hcell x y t t' ht
        exact ⟨h1.trans hP.1, h2.trans hP.2.1, h3.trans hP.2.2⟩)
      m.rows 0 m m' hrun hm
  have h' : forFrom (fun x (m : Matrix α) => forLoop m.rows (cell x) m) 0 M.cols M =
      some M' := h
  exact forFrom_preserves (fun x (m : Matrix α) => forLoop m.rows (cell x) m)
    (fun t => t.rows = M.rows ∧ t.cols = M.cols ∧ t.data.length = M.data.length)
    (fun x t t' ht hP => inner x t t' ht hP)
    M.cols 0 M M' h' ⟨rfl, rfl, rfl⟩

theorem columnVectorCell_shape {α : Type} (func : α → α → α) (v : VectorX α)
    (x y : Nat) (m m' : Matrix α) (h : columnVectorCell func v x y m = some m') :
    m'.rows = m.rows ∧ m'.cols = m.cols ∧ m'.data.length = m.data.length := by
  simp only [columnVectorCell, Option.bind_eq_some] at h
  obtain ⟨e, _, c, _, hset⟩ := h
  exact setCoeff_shape hset

theorem rowVectorCell_shape {α : Type} (func : α → α → α) (v : VectorX α)
    (x y : Nat) (m m' : Matrix α) (h : rowVectorCell func v x y m = some m') :
    m'.rows = m.rows ∧ m'.cols = m.cols ∧ m'.data.length = m.data.length := by
  simp only [rowVectorCell, Option.bind_eq_some] at h
  obtain ⟨e, _, c, _, hset⟩ := h
  exact setCoeff_shape hset

theorem WF_of_shape {α : Type} {M M' : Matrix α} (hM : M.WF) (hr : M'.rows = M.rows)
    (hc : M'.cols = M.cols) (hlen : M'.data.length = M.data.length) : M'.WF := by
  unfold WF at hM ⊢
  rw [hlen, hr, hc, hM]

end Matrix

/-- C15: for every matrix `M` and every valid argument (an operand of the same shape, a vector
of as many components as `M` has rows for the column broadcast and for `repeatVector`, one of
as many components as `M` has columns for the row broadcast), each of `elementwiseFunction`,
`elementwiseFunctionScalar`, `elementwiseFunctionMatrix`, `matrixColumnVectorFunction`,
`matrixRowVectorFunction` and `repeatVector` runs through and returns a matrix with the row
count and column count of `M` whose buffer still has `rows * cols` elements. -/
theorem mutation_preserves_shape {α : Type} (f : α → α) (g : α → α → α) (s : α)
    (M other : Matrix α) (vc vr : VectorX α) (hM : M.WF) (hO : other.WF)
    (hr : other.rows = M.rows) (hc : other.cols = M.cols)
    (hvc : vc.rows = M.rows) (hvr : vr.rows = M.cols) :
    (∃ M', M.elementwiseFunction f = some M' ∧
      M'.rows = M.rows ∧ M'.cols = M.cols ∧ M'.WF) ∧
    (∃ M', M.elementwiseFunctionScalar g s = some M' ∧
      M'.rows = M.rows ∧ M'.cols = M.cols ∧ M'.WF) ∧
    (∃ M' O', (M.elementwiseFunctionMatrix g other).2 = some (M', O') ∧
      M'.rows = M.rows ∧ M'.cols = M.cols ∧ M'.WF) ∧
    (∃ M', (M.matrixColumnVectorFunction g vc).2 = some M' ∧
      M'.rows = M.rows ∧ M'.cols = M.cols ∧ M'.WF) ∧
    (∃ M', (M.matrixRowVectorFunction g vr).2 = some M' ∧
      M'.rows = M.rows ∧ M'.cols = M.cols ∧ M'.WF) ∧
    (∃ M', M.repeatVector vc = some M' ∧
      M'.rows = M.rows ∧ M'.cols = M.cols ∧ M'.WF) := by
  refine ⟨?_, ?_, ?_, ?_, ?_, ?_⟩
  · obtain ⟨M', hrun, h1, h2, h3, _⟩ := Matrix.elementwiseFunction_run f M hM
    exact ⟨M', hrun, h1, h2, Matrix.WF_of_shape hM h1 h2 h3⟩
  · obtain ⟨M', hrun, h1, h2, h3, _⟩ :=
      Matrix.elementwiseFunction_run (fun e => g e s) M hM
    exact ⟨M', hrun, h1, h2, Matrix.WF_of_shape hM h1 h2 h3⟩
  · have hlen : M.data.length = other.data.length := by rw [hM, hO, hr, hc]
    obtain ⟨d, hrun, hd, _⟩ := Matrix.elementwiseFunctionMatrix_loop g M other hM (by omega)
    refine ⟨{ M with data := d }, other, ?_, rfl, rfl, ?_⟩
    · simp only [Matrix.elementwiseFunctionMatrix, hrun, Option.map_some']
    · exact Matrix.WF_of_shape hM rfl rfl hd
  · obtain ⟨M', hrun, _⟩ := Matrix.broadcast_run g M vc hM (fun _ y => y)
      (fun x y _ hy => by
        show y < vc.data.length
        unfold VectorX.rows at hvc; omega)
    obtain ⟨h1, h2, h3⟩ :=
      Matrix.forEachCell_shape _ (Matrix.columnVectorCell_shape g vc) M M' hrun
    exact ⟨M', hrun, h1, h2, Matrix.WF_of_shape hM h1 h2 h3⟩
  · obtain ⟨M', hrun, _⟩ := Matrix.broadcast_run g M vr hM (fun x _ => x)
      (fun x y hx _ => by
        show x < vr.data.length
        unfold VectorX.rows at hvr; omega)
    obtain ⟨h1, h2, h3⟩ :=
      Matrix.forEachCell_shape _ (Matrix.rowVectorCell_shape g vr) M M' hrun
    exact ⟨M', hrun, h1, h2, Matrix.WF_of_shape hM h1 h2 h3⟩
  · obtain ⟨M', hrun, h1, h2, h3, _⟩ := Matrix.repeatVector_run M vc hM hvc
    exact ⟨M', hrun, h1, h2, Matrix.WF_of_shape hM h1 h2 h3⟩

/-- C15 (witness): a `2 x 3` matrix with an operand of the same shape, a vector of length `2`
and a vector of length `3`. -/
theorem mutation_preserves_shape_witness :
    ((⟨2, 3, [1, 2, 3, 4, 5, 6]⟩ : Matrix Int).WF ∧
      (⟨2, 3, [6, 5, 4, 3, 2, 1]⟩ : Matrix Int).WF ∧ (2 : Nat) = 2 ∧ (3 : Nat) = 3 ∧
      (⟨[10, 20]⟩ : VectorX Int).rows = 2 ∧ (⟨[10, 20, 30]⟩ : VectorX Int).rows = 3) ∧
    ((∃ M', (⟨2, 3, [1, 2, 3, 4, 5, 6]⟩ : Matrix Int).elementwiseFunction (fun e => -e) =
        some M' ∧ M'.rows = 2 ∧ M'.cols = 3 ∧ M'.WF) ∧
    (∃ M', (⟨2, 3, [1, 2, 3, 4, 5, 6]⟩ : Matrix Int).elementwiseFunctionScalar
        (fun a b => a + b) 5 = some M' ∧ M'.rows = 2 ∧ M'.cols = 3 ∧ M'.WF) ∧
    (∃ M' O', ((⟨2, 3, [1, 2, 3, 4, 5, 6]⟩ : Matrix Int).elementwiseFunctionMatrix
        (fun a b => a + b) ⟨2, 3, [6, 5, 4, 3, 2, 1]⟩).2 = some (M', O') ∧
      M'.rows = 2 ∧ M'.cols = 3 ∧ M'.WF) ∧
    (∃ M', ((⟨2, 3, [1, 2, 3, 4, 5, 6]⟩ : Matrix Int).matrixColumnVectorFunction
        (fun a b => a + b) ⟨[10, 20]⟩).2 = some M' ∧ M'.rows = 2 ∧ M'.cols = 3 ∧ M'.WF) ∧
    (∃ M', ((⟨2, 3, [1, 2, 3, 4, 5, 6]⟩ : Matrix Int).matrixRowVectorFunction
        (fun a b => a + b) ⟨[10, 20, 30]⟩).2 = some M' ∧ M'.rows = 2 ∧ M'.cols = 3 ∧ M'.WF) ∧
    (∃ M', (⟨2, 3, [1, 2, 3, 4, 5, 6]⟩ : Matrix Int).repeatVector ⟨[10, 20]⟩ = some M' ∧
      M'.rows = 2 ∧ M'.cols = 3 ∧ M'.WF)) :=
  ⟨⟨by decide, by decide, rfl, rfl, by decide, by decide⟩,
   mutation_preserves_shape (fun e : Int => -e) (fun a b : Int => a + b) 5
     ⟨2, 3, [1, 2, 3, 4, 5, 6]⟩ ⟨2, 3, [6, 5, 4, 3, 2, 1]⟩ ⟨[10, 20]⟩ ⟨[10, 20, 30]⟩
     (by decide) (by decide) rfl rfl (by decide) (by decide)⟩

/-! ## `data_io::Importer`: lookahead and the last sample -/

namespace Importer

theorem getNextBatch_fields (imp : Importer) :
    (getNextBatch imp).2.dataset_size = imp.dataset_size ∧
    (getNextBatch imp).2.batch_size = imp.batch_size := by
  unfold getNextBatch
  split <;> exact ⟨rfl, rfl⟩

theorem nextBatches_fields (k : Nat) (imp : Importer) :
    (nextBatches k imp).2.dataset_size = imp.dataset_size ∧
    (nextBatches k imp).2.batch_size = imp.batch_size := by
  induction k with
  | zero => exact ⟨rfl, rfl⟩
  | succ j ih =>
    have h := getNextBatch_fields (nextBatches j imp).2
    simp only [nextBatches]
    exact ⟨h.1.trans ih.1, h.2.trans ih.2⟩

/-- One call of `getNextBatch` with `b < n` and `c + b` not overflowing does not build the
index `n - 1`. -/
theorem last_not_mem_getNextBatch (n b c : Nat) (hbn : b < n) (hov : c + b < SIZE_T_MOD) :
    n - 1 ∉ (getNextBatch ⟨n, c, b⟩).1 := by
  have hmod : (c + b) % SIZE_T_MOD = c + b := Nat.mod_eq_of_lt hov
  by_cases hlt : c + b < n
  · have hnot : ¬ c + b ≥ n := by omega
    simp only [getNextBatch, hmod, hnot, if_false]
    rw [mem_batchIndices c b (n - 1) (by omega)]
    omega
  · have hyes : c + b ≥ n := by omega
    simp only [getNextBatch, hmod, hyes, if_true]
    rw [mem_batchIndices 0 b (n - 1) (by omega)]
    omega

/-- C19: for every dataset size `n ≥ 2`, batch size `b` with `1 ≤ b < n` and cursor `c` with
`c + b` not overflowing, the batch built by `getNextBatch` does not contain the index `n - 1`;
hence in every sequence of `getNextBatch` calls, each made at a cursor whose sum with `b` does
not overflow, no batch contains the index `n - 1`. -/
theorem getNextBatch_never_last (n b c : Nat) (_hn : 2 ≤ n) (_hb : 1 ≤ b) (hbn : b < n)
    (hov : c + b < SIZE_T_MOD) :
    n - 1 ∉ (getNextBatch ⟨n, c, b⟩).1 ∧
    ∀ k, (∀ j, j < k → (nextBatches j ⟨n, c, b⟩).2.next_sample_index + b < SIZE_T_MOD) →
      ∀ batch ∈ (nextBatches k ⟨n, c, b⟩).1, n - 1 ∉ batch := by
  refine ⟨last_not_mem_getNextBatch n b c hbn hov, ?_⟩
  intro k
  induction k with
  | zero => intro _ batch hb; simp [nextBatches] at hb
  | succ j ih =>
    intro hall batch hb
    simp only [nextBatches, List.mem_append, List.mem_singleton] at hb
    rcases hb with hb | hb
    · exact ih (fun i hi => hall i (by omega)) batch hb
    · have hf := nextBatches_fields j ⟨n, c, b⟩
      have hst : (nextBatches j ⟨n, c, b⟩).2 =
          ⟨n, (nextBatches j ⟨n, c, b⟩).2.next_sample_index, b⟩ := by
        cases hs : (nextBatches j ⟨n, c, b⟩).2 with
        | mk d x y =>
          rw [hs] at hf
          simp only at hf
          rw [hf.1, hf.2]
      rw [hb, hst]
      exact last_not_mem_getNextBatch n b _ hbn (hall j (by omega))

/-- C19 (witness): dataset size `10`, batch size `3`, cursor `0`: no overflow can occur. -/
theorem getNextBatch_never_last_witness :
    (2 ≤ 10 ∧ 1 ≤ 3 ∧ 3 < 10 ∧ 0 + 3 < SIZE_T_MOD) ∧
    (10 - 1 ∉ (getNextBatch ⟨10, 0, 3⟩).1 ∧
    ∀ k, (∀ j, j < k → (nextBatches j ⟨10, 0, 3⟩).2.next_sample_index + 3 < SIZE_T_MOD) →
      ∀ batch ∈ (nextBatches k ⟨10, 0, 3⟩).1, 10 - 1 ∉ batch) :=
  ⟨⟨by decide, by decide, by decide, by decide⟩,
   getNextBatch_never_last 10 3 0 (by decide) (by decide) (by decide) (by decide)⟩

/-- C17 (amended claim): for every importer state with batch size `b ≥ 1` and cursor `c` such
that `c + b` does not overflow, `isLastBatch()`, which only reads the state, returns `true` if
and only if `c + b ≥ n`; when it returns `true` the next `getNextBatch` builds the batch
`[0, b)`, and when it returns `false` the next `getNextBatch` builds `[c, c + b)`, every index
of which is below `n`. -/
theorem isLastBatch_lookahead (n b c : Nat) (_hb : 1 ≤ b) (hov : c + b < SIZE_T_MOD) :
    (isLastBatch ⟨n, c, b⟩ = true ↔ c + b ≥ n) ∧
    (isLastBatch ⟨n, c, b⟩ = true → (getNextBatch ⟨n, c, b⟩).1 = List.range b) ∧
    (isLastBatch ⟨n, c, b⟩ = false →
      (getNextBatch ⟨n, c, b⟩).1 = List.range' c b ∧ ∀ i ∈ List.range' c b, i < n) := by
  have hmod : (c + b) % SIZE_T_MOD = c + b := Nat.mod_eq_of_lt hov
  have hiff : isLastBatch ⟨n, c, b⟩ = true ↔ c + b ≥ n := by
    simp only [isLastBatch, hmod, decide_eq_true_eq]
  refine ⟨hiff, ?_, ?_⟩
  · intro h
    have hyes : c + b ≥ n := hiff.mp h
    simp only [getNextBatch, hmod, hyes, if_true]
    rw [batchIndices_eq_range' 0 b (by omega), List.range_eq_range']
  · intro h
    have hnot : ¬ c + b ≥ n := by
      intro hge
      rw [hiff.mpr hge] at h
      exact Bool.noConfusion h
    refine ⟨?_, ?_⟩
    · simp only [getNextBatch, hmod, hnot, if_false]
      rw [batchIndices_eq_range' c b (by omega)]
    · intro i hi
      rw [List.mem_range'] at hi
      obtain ⟨k, hk, rfl⟩ := hi
      omega

/-- C17 (witness): dataset size `10`, batch size `3`, cursor `9`. -/
theorem isLastBatch_lookahead_witness :
    (1 ≤ 3 ∧ 9 + 3 < SIZE_T_MOD) ∧
    ((isLastBatch ⟨10, 9, 3⟩ = true ↔ 9 + 3 ≥ 10) ∧
    (isLastBatch ⟨10, 9, 3⟩ = true → (getNextBatch ⟨10, 9, 3⟩).1 = List.range 3) ∧
    (isLastBatch ⟨10, 9, 3⟩ = false →
      (getNextBatch ⟨10, 9, 3⟩).1 = List.range' 9 3 ∧ ∀ i ∈ List.range' 9 3, i < 10)) :=
  ⟨⟨by decide, by decide⟩, isLastBatch_lookahead 10 3 9 (by decide) (by decide)⟩

/-- C17 (counterexample to the claim without the overflow condition): with dataset size `5`,
batch size `1` and the cursor at `2 ^ 64 - 1` the sum `c + b` is at least `n`, but the
`size_t` sum wraps to `0`, `isLastBatch()` returns `false`, and the next `getNextBatch` builds
the batch `[2 ^ 64 - 1]`, whose index is not below `n`. -/
theorem isLastBatch_lookahead_overflow :
    18446744073709551615 + 1 ≥ 5 ∧
    isLastBatch ⟨5, 18446744073709551615, 1⟩ = false ∧
    (getNextBatch ⟨5, 18446744073709551615, 1⟩).1 = [18446744073709551615] ∧
    ¬ (∀ i ∈ (getNextBatch ⟨5, 18446744073709551615, 1⟩).1, i < 5) := by
  decide

end Importer

/-! ## `data_io::Importer`: random retrieval -/

namespace Importer

theorem randomIndices_succ {G : Type} (index_dist : Int → Int → G → Int × G) (hi : Int)
    (k : Nat) (g : G) :
    randomIndices index_dist hi (k + 1) g =
      ((randomIndices index_dist hi k g).1 ++
          [intToSize (index_dist 0 hi (randomIndices index_dist hi k g).2).1],
        (index_dist 0 hi (randomIndices index_dist hi k g).2).2) := by
  simp only [randomIndices, List.range_succ, List.foldl_append, List.foldl_cons, List.foldl_nil]

/-- The loop of `getRandomBatch` pushes exactly `batch_size` indices, each the value of one
draw, which the distribution keeps within `[0, hi]`. -/
theorem randomIndices_spec {G : Type} (index_dist : Int → Int → G → Int × G)
    (hdist : ∀ a b g, a ≤ b → a ≤ (index_dist a b g).1 ∧ (index_dist a b g).1 ≤ b)
    (hi : Int) (h0 : 0 ≤ hi) (bound : Nat) (hb : hi < bound) (hbound : bound ≤ SIZE_T_MOD)
    (k : Nat) (g : G) :
    (randomIndices index_dist hi k g).1.length = k ∧
    ∀ i ∈ (randomIndices index_dist hi k g).1, i < bound := by
  induction k with
  | zero => simp [randomIndices]
  | succ j ih =>
    rw [randomIndices_succ]
    obtain ⟨hlen, hmem⟩ := ih
    refine ⟨by simp [hlen], ?_⟩
    intro i hi'
    simp only [List.mem_append, List.mem_singleton] at hi'
    rcases hi' with hi' | hi'
    · exact hmem i hi'
    · obtain ⟨hlo, hhi⟩ := hdist 0 hi (randomIndices index_dist hi j g).2 h0
      rw [hi']
      unfold intToSize
      rw [SIZE_T_MOD_eq] at hbound ⊢
      omega

theorem sizeToInt_pred (n : Nat) (hn : 1 ≤ n) (hsz : n < SIZE_T_MOD)
    (hfit : (n - 1) % UINT_MOD < 2 ^ 31) :
    0 ≤ sizeToInt ((n + SIZE_T_MOD - 1) % SIZE_T_MOD) ∧
    sizeToInt ((n + SIZE_T_MOD - 1) % SIZE_T_MOD) < (n : Int) := by
  have h1 : (n + SIZE_T_MOD - 1) % SIZE_T_MOD = n - 1 := by
    rw [SIZE_T_MOD_eq] at hsz ⊢
    omega
  rw [h1]
  unfold sizeToInt
  rw [if_pos hfit]
  have : (n - 1) % UINT_MOD ≤ n - 1 := Nat.mod_le _ _
  omega

theorem counterDist_contract (a b : Int) (g : Nat) (h : a ≤ b) :
    a ≤ (counterDist a b g).1 ∧ (counterDist a b g).1 ≤ b := by
  have hpos : 0 < b - a + 1 := by omega
  have h1 := Int.emod_nonneg (g : Int) (ne_of_gt hpos)
  have h2 := Int.emod_lt_of_pos (g : Int) hpos
  simp only [counterDist]
  omega

/-- C14 (amended claim): for every importer whose dataset size `n ≥ 1` is such that `n - 1`
converted to `int` is not negative (in particular for every `n ≤ 2 ^ 31`), and whatever values
the distribution draws within its bounds, `getRandomBatch` returns exactly `batch_size`
indices, each below `n`, `getRandomSample` returns an index below `n`, and both leave the
importer state (`next_sample_index`, `batch_size`) as it was, so that a following
`getNextSample` or `getNextBatch` returns what it would have returned without the random
call. -/
theorem random_retrieval_frame {G : Type} (index_dist : Int → Int → G → Int × G)
    (hdist : ∀ a b g, a ≤ b → a ≤ (index_dist a b g).1 ∧ (index_dist a b g).1 ≤ b)
    (n c b : Nat) (g : G) (hn : 1 ≤ n) (hsz : n < SIZE_T_MOD)
    (hfit : (n - 1) % UINT_MOD < 2 ^ 31) :
    (∃ idx g', getRandomBatch index_dist ⟨n, c, b⟩ g = some (idx, ⟨n, c, b⟩, g') ∧
      idx.length = b ∧ ∀ i ∈ idx, i < n) ∧
    (∃ i g', getRandomSample index_dist ⟨n, c, b⟩ g = some (i, ⟨n, c, b⟩, g') ∧ i < n) ∧
    (∀ r, getRandomBatch index_dist ⟨n, c, b⟩ g = some r →
      getNextBatch r.2.1 = getNextBatch ⟨n, c, b⟩ ∧
      getNextSample r.2.1 = getNextSample ⟨n, c, b⟩) ∧
    (∀ r, getRandomSample index_dist ⟨n, c, b⟩ g = some r →
      getNextBatch r.2.1 = getNextBatch ⟨n, c, b⟩ ∧
      getNextSample r.2.1 = getNextSample ⟨n, c, b⟩) := by
  obtain ⟨h0, hlt⟩ := sizeToInt_pred n hn hsz hfit
  have hbatch : getRandomBatch index_dist ⟨n, c, b⟩ g =
      some ((randomIndices index_dist
          (sizeToInt ((n + SIZE_T_MOD - 1) % SIZE_T_MOD)) b g).1, ⟨n, c, b⟩,
        (randomIndices index_dist
          (sizeToInt ((n + SIZE_T_MOD - 1) % SIZE_T_MOD)) b g).2) := by
    simp only [getRandomBatch, h0, if_true]
  have hsample : getRandomSample index_dist ⟨n, c, b⟩ g =
      some (intToUnsigned
          (index_dist 0 (sizeToInt ((n + SIZE_T_MOD - 1) % SIZE_T_MOD)) g).1, ⟨n, c, b⟩,
        (index_dist 0 (sizeToInt ((n + SIZE_T_MOD - 1) % SIZE_T_MOD)) g).2) := by
    simp only [getRandomSample, h0, if_true]
  obtain ⟨hlen, hmem⟩ := randomIndices_spec index_dist hdist _ h0 n hlt (le_of_lt hsz) b g
  refine ⟨⟨_, _, hbatch, hlen, hmem⟩, ⟨_, _, hsample, ?_⟩, ?_, ?_⟩
  · obtain ⟨hlo, hhi⟩ := hdist 0 _ g h0
    unfold intToUnsigned UINT_MOD
    unfold UINT_MOD at hfit
    have hle : sizeToInt ((n + SIZE_T_MOD - 1) % SIZE_T_MOD) < 2 ^ 31 := by
      have h1 : (n + SIZE_T_MOD - 1) % SIZE_T_MOD = n - 1 := by
        rw [SIZE_T_MOD_eq] at hsz ⊢
        omega
      rw [h1]
      unfold sizeToInt UINT_MOD
      rw [if_pos hfit]
      omega
    omega
  · intro r hr
    rw [hbatch] at hr
    obtain rfl := Option.some.inj hr
    exact ⟨rfl, rfl⟩
  · intro r hr
    rw [hsample] at hr
    obtain rfl := Option.some.inj hr
    exact ⟨rfl, rfl⟩

end Importer

/-- C14 (witness): dataset size `10`, cursor `4`, batch size `3`, drawing with `counterDist`
from the generator state `7`. -/
theorem random_retrieval_frame_witness :
    ((∀ (a b : Int) (g : Nat), a ≤ b →
        a ≤ (Importer.counterDist a b g).1 ∧ (Importer.counterDist a b g).1 ≤ b) ∧
      1 ≤ 10 ∧ 10 < SIZE_T_MOD ∧ (10 - 1) % UINT_MOD < 2 ^ 31) ∧
    ((∃ idx g', Importer.getRandomBatch Importer.counterDist ⟨10, 4, 3⟩ 7 =
        some (idx, ⟨10, 4, 3⟩, g') ∧ idx.length = 3 ∧ ∀ i ∈ idx, i < 10) ∧
    (∃ i g', Importer.getRandomSample Importer.counterDist ⟨10, 4, 3⟩ 7 =
        some (i, ⟨10, 4, 3⟩, g') ∧ i < 10) ∧
    (∀ r, Importer.getRandomBatch Importer.counterDist ⟨10, 4, 3⟩ 7 = some r →
      Importer.getNextBatch r.2.1 = Importer.getNextBatch ⟨10, 4, 3⟩ ∧
      Importer.getNextSample r.2.1 = Importer.getNextSample ⟨10, 4, 3⟩) ∧
    (∀ r, Importer.getRandomSample Importer.counterDist ⟨10, 4, 3⟩ 7 = some r →
      Importer.getNextBatch r.2.1 = Importer.getNextBatch ⟨10, 4, 3⟩ ∧
      Importer.getNextSample r.2.1 = Importer.getNextSample ⟨10, 4, 3⟩)) ∧
    Importer.getRandomBatch Importer.counterDist ⟨10, 4, 3⟩ 7 =
      some ([7, 8, 9], ⟨10, 4, 3⟩, 10) :=
  ⟨⟨Importer.counterDist_contract, by decide, by decide, by decide⟩,
   Importer.random_retrieval_frame Importer.counterDist Importer.counterDist_contract
     10 4 3 7 (by decide) (by decide) (by decide),
   by decide⟩

/-- C14 (counterexample to the claim for every `n ≥ 1`): with `2 ^ 31 + 1` samples the bound
`size() - 1 = 2 ^ 31` handed to the `int` distribution converts to `-2 ^ 31`, the distribution
is constructed with an upper bound below its lower bound `0`, and neither `getRandomBatch` nor
`getRandomSample` returns indices. -/
theorem random_retrieval_int_bound :
    1 ≤ 2147483649 ∧
    sizeToInt ((2147483649 + SIZE_T_MOD - 1) % SIZE_T_MOD) = -2147483648 ∧
    Importer.getRandomBatch Importer.counterDist ⟨2147483649, 0, 1⟩ 0 = none ∧
    Importer.getRandomSample Importer.counterDist ⟨2147483649, 0, 1⟩ 0 = none := by
  decide

/-! ## `data_utils::uniform` -/

namespace data_utils

theorem truncate_of_nonneg {x : ℚ} (hx : 0 ≤ x) : truncate x = ⌊x⌋ := by
  simp [truncate, hx]

theorem roundHalfEven_intCast (n : Int) : roundHalfEven (n : ℚ) = n := by
  simp [roundHalfEven]

theorem roundToDouble_pos_eq {x : ℚ} (hx : 0 < x) :
    roundToDouble x =
      (roundHalfEven (x / 2 ^ (max (Int.log 2 x) (-1022) - 52)) : ℚ) *
        2 ^ (max (Int.log 2 x) (-1022) - 52) := by
  unfold roundToDouble
  rw [if_neg (ne_of_gt hx), abs_of_pos hx]

theorem roundToDouble_natCast (n : Nat) (hn : n < 2 ^ 53) : roundToDouble (n : ℚ) = n := by
  rcases Nat.eq_zero_or_pos n with h0 | hpos
  · subst h0; simp [roundToDouble]
  · have hposq : (0 : ℚ) < n := by exact_mod_cast hpos
    rw [roundToDouble_pos_eq hposq, Int.log_natCast]
    have hk : Nat.log 2 n < 53 := Nat.log_lt_of_lt_pow (by omega) hn
    have hmax : max ((Nat.log 2 n : Nat) : Int) (-1022) = (Nat.log 2 n : Int) :=
      max_eq_left (by omega)
    rw [hmax]
    obtain ⟨j, hj⟩ : ∃ j : Nat, (Nat.log 2 n : Int) - 52 = -(j : Int) :=
      ⟨52 - Nat.log 2 n, by omega⟩
    rw [hj]
    have hu : (2 : ℚ) ^ (-(j : Int)) = ((2 : ℚ) ^ j)⁻¹ := by
      rw [zpow_neg, zpow_natCast]
    rw [hu]
    have hq : (n : ℚ) / ((2 : ℚ) ^ j)⁻¹ = (((n * 2 ^ j : Nat) : Int) : ℚ) := by
      rw [div_inv_eq_mul]; push_cast; ring
    rw [hq, roundHalfEven_intCast]
    push_cast
    field_simp

theorem roundToDouble_of_bounds {x : ℚ} (e n : Int) (hx : 0 < x) (he : -1022 ≤ e)
    (h1 : (2 : ℚ) ^ e ≤ x) (h2 : x < (2 : ℚ) ^ (e + 1))
    (hn : roundHalfEven (x / 2 ^ (e - 52)) = n) :
    roundToDouble x = (n : ℚ) * 2 ^ (e - 52) := by
  have hlog : Int.log 2 x = e := by
    apply le_antisymm
    · have := (Int.lt_zpow_iff_log_lt (b := 2) (by norm_num) hx).mp (by exact_mod_cast h2)
      omega
    · exact (Int.zpow_le_iff_le_log (b := 2) (by norm_num) hx).mp (by exact_mod_cast h1)
  rw [roundToDouble_pos_eq hx, hlog, max_eq_left he, hn]

theorem roundToDouble_zero : roundToDouble 0 = 0 := by
  simp [roundToDouble]

theorem roundHalfEven_of_floor {q : ℚ} (f : Int) (hf : ⌊q⌋ = f) :
    roundHalfEven q =
      if q - f < 1 / 2 then f else if 1 / 2 < q - f then f + 1
      else if f % 2 = 0 then f else f + 1 := by
  simp only [roundHalfEven, hf]

theorem doubleToInt_of_floor {p : ℚ} (outOfRange t : Int) (h0 : 0 ≤ p) (hfl : ⌊p⌋ = t) :
    doubleToInt outOfRange p = if t ≤ INT_MAX then t else outOfRange := by
  have ht0 : 0 ≤ t := by rw [← hfl]; exact Int.floor_nonneg.mpr h0
  have hlow : -INT_MAX - 1 ≤ t := by unfold INT_MAX; omega
  simp only [doubleToInt, truncate_of_nonneg h0, hfl, hlow, true_and]

theorem uniform_eval (fl : ℚ → ℚ) (outOfRange : Int) (i m d : Nat) (r p : ℚ) (t : Int)
    (hd : (m + UINT_MOD - i) % UINT_MOD = d) (hp : fl ((d : ℚ) * r) = p)
    (ht : doubleToInt outOfRange p = t) :
    uniform fl outOfRange i m r = intToUnsigned ((i : Int) + t) := by
  simp only [uniform, hd, hp, ht]

end data_utils

/-- Exchanging two elements of a list by two writes gives a permutation of the list. -/
theorem swap_perm {α : Type} [DecidableEq α] (l : List α) (i j : Nat) (hi : i < l.length)
    (hj : j < l.length) :
    ((l.set i (l[j])).set j (l[i])).Perm l := by
  rw [List.perm_iff_count]
  intro b
  have hj1 : j < (l.set i (l[j])).length := by simp [hj]
  have hget : (l.set i (l[j]))[j] = l[j] := by
    rw [List.getElem_set]
    split <;> rfl
  rw [List.count_set _ _ _ _ hj1, hget, List.count_set _ _ _ _ hi]
  have h1 := List.boole_getElem_le_count b l i hi
  have h2 := List.boole_getElem_le_count b l j hj
  simp only [beq_iff_eq] at h1 h2 ⊢
  split_ifs at h1 h2 ⊢ <;> omega

namespace data_utils

/-- One iteration of `permute` after the call of `uniform` returned `j0`, whatever its value:
both accesses stay inside the array and the array is rearranged. -/
theorem permuteSwap_run (n i j0 : Nat) (arr : List Int) (hlen : arr.length = n)
    (hn : n < UINT_MOD) (hi : i < n) :
    ∃ arr', permuteSwap n i j0 arr = some arr' ∧ arr'.Perm arr ∧ arr'.length = n := by
  have hn1 : (n + UINT_MOD - 1) % UINT_MOD = n - 1 := by
    unfold UINT_MOD at hn ⊢
    omega
  have hclamp : ∃ j, (if (if j0 < 0 then 0 else j0) > (n + UINT_MOD - 1) % UINT_MOD then
      (n + UINT_MOD - 1) % UINT_MOD else (if j0 < 0 then 0 else j0)) = j ∧ j < arr.length := by
    refine ⟨_, rfl, ?_⟩
    rw [hn1, if_neg (Nat.not_lt_zero j0)]
    split <;> omega
  obtain ⟨j, hj, hjlt⟩ := hclamp
  have hilt : i < arr.length := by omega
  refine ⟨(arr.set i (arr[j])).set j (arr[i]), ?_, swap_perm arr i j hilt hjlt, by simp [hlen]⟩
  simp only [permuteSwap, hj]
  simp [readAt, writeAt, hilt, hjlt]

end data_utils

/-- C21: for every array of length `n` (an `unsigned` value, `n = 0` included) and every
sequence of values returned by the calls of `uniform`, `permute` runs through without an array
access outside `[0, n - 1]` and the resulting array is a permutation of the input array, of
the same length. -/
theorem permute_rearranges (uniform_ : Nat → Nat → Option Nat) (arr : List Int) (n : Nat)
    (hlen : arr.length = n) (hn : n < UINT_MOD)
    (hret : ∀ i, i < n → ∃ j, uniform_ i (n - 1) = some j) :
    ∃ arr', data_utils.permute uniform_ arr n = some arr' ∧ arr'.Perm arr ∧
      arr'.length = n := by
  have hn1 : n ≠ 0 → (n + UINT_MOD - 1) % UINT_MOD = n - 1 := by
    intro _
    unfold UINT_MOD at hn ⊢
    omega
  exact forLoop_inv n
    (fun i a => (uniform_ i ((n + UINT_MOD - 1) % UINT_MOD)).bind
      (fun j0 => data_utils.permuteSwap n i j0 a))
    (fun _ a => a.Perm arr ∧ a.length = n) arr ⟨List.Perm.refl arr, hlen⟩
    (by
      intro i a hi ⟨hperm, hal⟩
      obtain ⟨j0, hj0⟩ := hret i hi
      obtain ⟨a', hrun, hp', hl'⟩ := data_utils.permuteSwap_run n i j0 a hal hn hi
      refine ⟨a', ?_, hp'.trans hperm, hl'⟩
      simp only [hn1 (by omega), hj0, Option.some_bind]
      exact hrun)

/-- C21 (witness): the array `[10, 20, 30, 40]` with `uniform` fed the value `1/2` by
`rand_real01()` at every call: the calls return `1, 2, 2, 3` and the code returns
`[20, 30, 10, 40]`. -/
theorem permute_rearranges_witness :
    (([10, 20, 30, 40] : List Int).length = 4 ∧ 4 < UINT_MOD ∧
      ∀ i, i < 4 → ∃ j,
        some (data_utils.uniform data_utils.roundToDouble (-2147483648) i (4 - 1) (1 / 2)) = some j) ∧
    (∃ arr', data_utils.permute
        (fun i m => some (data_utils.uniform data_utils.roundToDouble (-2147483648) i m (1 / 2)))
        [10, 20, 30, 40] 4 = some arr' ∧ arr'.Perm [10, 20, 30, 40] ∧ arr'.length = 4) ∧
    data_utils.permute
        (fun i m => some (data_utils.uniform data_utils.roundToDouble (-2147483648) i m (1 / 2)))
        [10, 20, 30, 40] 4 =
      some [20, 30, 10, 40] :=
  have r0 : data_utils.roundToDouble (((3 : Nat) : ℚ) * (1 / 2)) = 3 / 2 := by
    rw [data_utils.roundToDouble_of_bounds 0 6755399441055744 (by norm_num) (by norm_num)
      (by norm_num) (by norm_num)
      (by
        rw [data_utils.roundHalfEven_of_floor 6755399441055744
          (by rw [Int.floor_eq_iff]; constructor <;> norm_num)]
        norm_num)]
    norm_num
  have r1 : data_utils.roundToDouble (((2 : Nat) : ℚ) * (1 / 2)) = 1 := by
    rw [show ((2 : Nat) : ℚ) * (1 / 2) = ((1 : Nat) : ℚ) by norm_num,
      data_utils.roundToDouble_natCast 1 (by norm_num)]
    norm_num
  have r2 : data_utils.roundToDouble (((1 : Nat) : ℚ) * (1 / 2)) = 1 / 2 := by
    rw [data_utils.roundToDouble_of_bounds (-1) 4503599627370496 (by norm_num) (by norm_num)
      (by norm_num) (by norm_num)
      (by
        rw [data_utils.roundHalfEven_of_floor 4503599627370496
          (by rw [Int.floor_eq_iff]; constructor <;> norm_num)]
        norm_num)]
    norm_num
  have r3 : data_utils.roundToDouble (((0 : Nat) : ℚ) * (1 / 2)) = 0 := by
    rw [show ((0 : Nat) : ℚ) * (1 / 2) = 0 by norm_num, data_utils.roundToDouble_zero]
  have u0 : data_utils.uniform data_utils.roundToDouble (-2147483648) 0 3 (1 / 2) = 1 := by
    rw [data_utils.uniform_eval _ _ 0 3 3 _ _ 1 (by decide) r0
      (by
        rw [data_utils.doubleToInt_of_floor _ 1 (by norm_num)
          (by rw [Int.floor_eq_iff]; constructor <;> norm_num)]
        decide)]
    decide
  have u1 : data_utils.uniform data_utils.roundToDouble (-2147483648) 1 3 (1 / 2) = 2 := by
    rw [data_utils.uniform_eval _ _ 1 3 2 _ _ 1 (by decide) r1
      (by
        rw [data_utils.doubleToInt_of_floor _ 1 (by norm_num) (by norm_num)]
        decide)]
    decide
  have u2 : data_utils.uniform data_utils.roundToDouble (-2147483648) 2 3 (1 / 2) = 2 := by
    rw [data_utils.uniform_eval _ _ 2 3 1 _ _ 0 (by decide) r2
      (by
        rw [data_utils.doubleToInt_of_floor _ 0 (by norm_num)
          (by rw [Int.floor_eq_iff]; constructor <;> norm_num)]
        decide)]
    decide
  have u3 : data_utils.uniform data_utils.roundToDouble (-2147483648) 3 3 (1 / 2) = 3 := by
    rw [data_utils.uniform_eval _ _ 3 3 0 _ _ 0 (by decide) r3
      (by
        rw [data_utils.doubleToInt_of_floor _ 0 (by norm_num) (by norm_num)]
        decide)]
    decide
  have hret : ∀ i, i < 4 → ∃ j,
      some (data_utils.uniform data_utils.roundToDouble (-2147483648) i (4 - 1) (1 / 2)) = some j :=
    fun i _ => ⟨_, rfl⟩
  have hn1 : (4 + UINT_MOD - 1) % UINT_MOD = 3 := by decide
  ⟨⟨rfl, by decide, hret⟩,
   permute_rearranges
     (fun i m => some (data_utils.uniform data_utils.roundToDouble (-2147483648) i m (1 / 2)))
     [10, 20, 30, 40] 4 rfl (by decide) hret,
   by
     simp only [data_utils.permute, forLoop, forFrom, hn1, u0, u1, u2, u3, Option.some_bind]
     decide⟩

/-! ## `data_utils::rand_real01`, `get_rand_range` and `rand_int_radius` -/

namespace data_utils

/-- Without `USE_MT_RNG` neither function produces a value within any bound on the depth of
nested calls. -/
theorem no_value_without_mt (genrand : ℚ) (depth : Nat) :
    rand_real01 false genrand depth = none ∧
    ∀ minimum maximum, get_rand_range false genrand depth minimum maximum = none := by
  induction depth with
  | zero => exact ⟨rfl, fun _ _ => rfl⟩
  | succ d ih =>
    refine ⟨?_, ?_⟩
    · simp only [rand_real01, Bool.false_eq_true, if_false]
      exact ih.2 0 1
    · intro minimum maximum
      simp only [get_rand_range, ih.1, Option.map_none']

end data_utils

/-- C22: built without `USE_MT_RNG`, `rand_real01()` calls `get_rand_range(0, 1)` and
`get_rand_range` calls `rand_real01()`, so for every bound on the depth of nested calls
neither `rand_real01()` nor `get_rand_range(min, max)`, for any arguments, produces a value;
built with `USE_MT_RNG`, the same model returns the value of `genrand64_real2()` at the first
call. -/
theorem rand_real01_never_returns (genrand : ℚ) (depth : Nat) (minimum maximum : ℚ) :
    data_utils.rand_real01 false genrand depth = none ∧
    data_utils.get_rand_range false genrand depth minimum maximum = none ∧
    data_utils.rand_real01 false genrand (depth + 1) =
      data_utils.get_rand_range false genrand depth 0 1 ∧
    data_utils.get_rand_range false genrand (depth + 1) minimum maximum =
      (data_utils.rand_real01 false genrand depth).map
        (fun r => |maximum - minimum| * r + minimum) ∧
    data_utils.rand_real01 true genrand (depth + 1) = some genrand := by
  refine ⟨(data_utils.no_value_without_mt genrand depth).1,
    (data_utils.no_value_without_mt genrand depth).2 minimum maximum, ?_, ?_, ?_⟩
  · simp only [data_utils.rand_real01, Bool.false_eq_true, if_false]
  · simp only [data_utils.get_rand_range]
  · simp only [data_utils.rand_real01, if_true]

/-- C23: with `unsigned long long` arithmetic modulo `2 ^ 64`, for every `max ≥ 1`,
`center < max` and `radius ≤ max` with `center + 2 * radius + max < 2 ^ 64`, and every drawn
offset `d` with `0 ≤ d ≤ 2 * radius`, `rand_int_radius` returns the value
`(center - radius + d) mod max` computed over the integers, which lies in `[0, max)`. -/
theorem rand_int_radius_wraps (center radius max d : Nat) (hmax : 1 ≤ max)
    (_hc : center < max) (hr : radius ≤ max)
    (hsum : center + 2 * radius + max < data_utils.ULL_MOD) (hd : d ≤ 2 * radius) :
    ∃ res, data_utils.rand_int_radius center radius max d = some res ∧
      (res : Int) = ((center : Int) - (radius : Int) + (d : Int)) % (max : Int) ∧
      res < max := by
  have hULL : data_utils.ULL_MOD = 18446744073709551616 := by norm_num [data_utils.ULL_MOD]
  rw [hULL] at hsum
  have hmax0 : ¬ max = 0 := by omega
  have hc3 : ((((center + data_utils.ULL_MOD - radius) % data_utils.ULL_MOD + d) %
      data_utils.ULL_MOD + max) % data_utils.ULL_MOD) = center + d + max - radius := by
    rw [hULL]; omega
  refine ⟨(center + d + max - radius) % max, ?_, ?_, Nat.mod_lt _ (by omega)⟩
  · simp only [data_utils.rand_int_radius, hmax0, if_false, hc3]
  · have hcast : ((center + d + max - radius : Nat) : Int) =
        ((center : Int) - (radius : Int) + (d : Int)) + (max : Int) := by omega
    rw [Int.natCast_mod, hcast, Int.add_emod_self]

/-- C23 (witness): `center = 1`, `radius = 3`, `max = 10` and the offset `d = 1`:
`center - radius` underflows to `2 ^ 64 - 2`, and the code returns
`(1 - 3 + 1) mod 10 = 9`.  For `center = 0`, `radius = 2 ^ 61 + 1`, `max = 2 ^ 62` and the
offset `2 ^ 62 - 510` it returns `2 ^ 61 - 511`. -/
theorem rand_int_radius_wraps_witness :
    (1 ≤ 10 ∧ 1 < 10 ∧ 3 ≤ 10 ∧ 1 + 2 * 3 + 10 < data_utils.ULL_MOD ∧ 1 ≤ 2 * 3) ∧
    (∃ res, data_utils.rand_int_radius 1 3 10 1 = some res ∧
      (res : Int) = ((1 : Nat) - (3 : Nat) + (1 : Nat)) % (10 : Nat) ∧ res < 10) ∧
    data_utils.rand_int_radius 1 3 10 1 = some 9 ∧
    data_utils.rand_int_radius 0 2305843009213693953 4611686018427387904
      4611686018427387394 = some 2305843009213693441 :=
  ⟨⟨by decide, by decide, by decide, by decide, by decide⟩,
   rand_int_radius_wraps 1 3 10 1 (by decide) (by decide) (by decide) (by decide)
     (by decide),
   by decide, by decide⟩

/-! ## Loops with an `int` counter -/

theorem int_incr_defined (i : Nat) (h : i + 1 < 2 ^ 31) : (i : Int) + 1 ≤ INT_MAX := by
  unfold INT_MAX; omega

theorem int_incr_at_max : ¬ ((2147483647 : Nat) : Int) + 1 ≤ INT_MAX := by
  unfold INT_MAX; omega

theorem intCounterStep_of_lt {σ : Type} (body : Nat → σ → Option σ) (i : Nat) (s : σ)
    (h : i + 1 < 2 ^ 31) : intCounterStep body i s = body i s := by
  simp only [intCounterStep, int_incr_defined i h, if_true]
  cases body i s <;> rfl

theorem intCounterStep_at_max {σ : Type} (body : Nat → σ → Option σ) (s : σ) :
    intCounterStep body 2147483647 s = none := by
  simp only [intCounterStep, int_incr_at_max, if_false]
  cases body 2147483647 s <;> rfl

/-- A loop that reaches an iteration without a defined outcome has none itself. -/
theorem forFrom_none {σ : Type} (body : Nat → σ → Option σ) (j : Nat)
    (hj : ∀ t, body j t = none) :
    ∀ (k i : Nat) (s : σ), i ≤ j → j < i + k → forFrom body i k s = none := by
  intro k
  induction k with
  | zero => intro i s h1 h2; omega
  | succ k ih =>
    intro i s h1 h2
    simp only [forFrom]
    by_cases hij : i = j
    · rw [hij, hj s]; rfl
    · cases hb : body i s with
      | none => rfl
      | some t => exact ih (i + 1) t (by omega) (by omega)

/-- A loop with an `int` counter over `2 ^ 31` or more positions overflows the counter. -/
theorem intCounter_overflow {σ : Type} (body : Nat → σ → Option σ) (n : Nat) (s : σ)
    (h : 2 ^ 31 ≤ n) : forLoop n (intCounterStep body) s = none :=
  forFrom_none (intCounterStep body) 2147483647 (intCounterStep_at_max body) n 0 s
    (Nat.zero_le _) (by omega)

/-! ## `mlnn::ReLU`: forward and backward pass -/

namespace ReLU

/-- Run of `forward` over fewer than `2 ^ 31` positions: it produces a layer state in which
only the buffer of `s['y']` differs, holding `fmaxf(x[k], 0)` at every position `k`. -/
theorem forward_run (apply_dropout : Bool) (l : Layer) (hx : l.sx.WF)
    (hy : l.sy.data.length = l.sx.data.length) (hsize : l.sx.rows * l.sx.cols < 2 ^ 31) :
    ∃ l', forward apply_dropout l = some l' ∧
      l'.sx = l.sx ∧ l'.gx = l.gx ∧ l'.gy = l.gy ∧
      l'.sy.rows = l.sy.rows ∧ l'.sy.cols = l.sy.cols ∧
      l'.sy.data.length = l.sy.data.length ∧
      ∀ k, k < l.sy.data.length →
        l'.sy.data[k]? = (l.sx.data[k]?).map (fun xi => fmaxf xi (.fin 0)) := by
  have hN : l.sx.rows * l.sx.cols = l.sy.data.length := by rw [hy]; exact hx.symm
  obtain ⟨l', hrun, h1, h2, h3, h4, h5, hupd⟩ :=
    forLoop_inv (l.sx.rows * l.sx.cols) (intCounterStep forwardStep)
      (fun i t => t.sx = l.sx ∧ t.gx = l.gx ∧ t.gy = l.gy ∧
        t.sy.rows = l.sy.rows ∧ t.sy.cols = l.sy.cols ∧
        Upd l.sy.data (fun k => (l.sx.data[k]?).map (fun xi => fmaxf xi (.fin 0))) i
          t.sy.data)
      l ⟨rfl, rfl, rfl, rfl, rfl, Upd.init _ _⟩
      (by
        intro j t hj ⟨h1, h2, h3, h4, h5, hupd⟩
        have hjy : j < l.sy.data.length := by omega
        have hjx : j < l.sx.data.length := by omega
        have hread : readAt t.sx.data j = some (l.sx.data[j]) := by
          rw [h1]; simp [readAt, hjx]
        obtain ⟨hw, hupd'⟩ := hupd.write hjy (fmaxf (l.sx.data[j]) (.fin 0)) (by simp [hjx])
        refine ⟨{ t with
          sy := { t.sy with data := t.sy.data.set j (fmaxf (l.sx.data[j]) (.fin 0)) } },
          ?_, ?_⟩
        · rw [intCounterStep_of_lt forwardStep j t (by omega)]
          simp only [forwardStep, hread, Option.some_bind, hw, Option.map_some']
        · exact ⟨h1, h2, h3, h4, h5, hupd'⟩)
  rw [hN] at hupd
  exact ⟨l', hrun, h1, h2, h3, h4, h5, hupd.final.1, hupd.final.2⟩

/-- Run of `backward` over fewer than `2 ^ 31` positions: it produces a layer state in which
only the buffer of `g['x']` differs, holding `(float)(y[k] > 0) * gy[k]` at every position
`k`. -/
theorem backward_run (l : Layer) (hgx : l.gx.WF)
    (hgy : l.gy.data.length = l.gx.data.length) (hsy : l.sy.data.length = l.gx.data.length)
    (hsize : l.gx.rows * l.gx.cols < 2 ^ 31) :
    ∃ l', backward l = some l' ∧
      l'.sx = l.sx ∧ l'.sy = l.sy ∧ l'.gy = l.gy ∧
      l'.gx.rows = l.gx.rows ∧ l'.gx.cols = l.gx.cols ∧
      l'.gx.data.length = l.gx.data.length ∧
      ∀ k, k < l.gx.data.length →
        l'.gx.data[k]? = (l.sy.data[k]?).bind (fun yi =>
          (l.gy.data[k]?).map (fun gyi => (FloatVal.ofBool yi.gtZero).mul gyi)) := by
  have hN : l.gx.rows * l.gx.cols = l.gx.data.length := hgx.symm
  obtain ⟨l', hrun, h1, h2, h3, h4, h5, hupd⟩ :=
    forLoop_inv (l.gx.rows * l.gx.cols) (intCounterStep backwardStep)
      (fun i t => t.sx = l.sx ∧ t.sy = l.sy ∧ t.gy = l.gy ∧
        t.gx.rows = l.gx.rows ∧ t.gx.cols = l.gx.cols ∧
        Upd l.gx.data (fun k => (l.sy.data[k]?).bind (fun yi =>
          (l.gy.data[k]?).map (fun gyi => (FloatVal.ofBool yi.gtZero).mul gyi))) i t.gx.data)
      l ⟨rfl, rfl, rfl, rfl, rfl, Upd.init _ _⟩
      (by
        intro j t hj ⟨h1, h2, h3, h4, h5, hupd⟩
        have hjx : j < l.gx.data.length := by omega
        have hjy : j < l.sy.data.length := by omega
        have hjg : j < l.gy.data.length := by omega
        have hready : readAt t.sy.data j = some (l.sy.data[j]) := by
          rw [h2]; simp [readAt, hjy]
        have hreadg : readAt t.gy.data j = some (l.gy.data[j]) := by
          rw [h3]; simp [readAt, hjg]
        obtain ⟨hw, hupd'⟩ := hupd.write hjx
          ((FloatVal.ofBool (l.sy.data[j]).gtZero).mul (l.gy.data[j])) (by simp [hjy, hjg])
        refine ⟨{ t with
          gx := { t.gx with
            data := t.gx.data.set j ((FloatVal.ofBool (l.sy.data[j]).gtZero).mul (l.gy.data[j])) } },
          ?_, ?_⟩
        · rw [intCounterStep_of_lt backwardStep j t (by omega)]
          simp only [backwardStep, hready, hreadg, Option.some_bind, hw, Option.map_some']
        · exact ⟨h1, h2, h3, h4, h5, hupd'⟩)
  rw [hN] at hupd
  exact ⟨l', hrun, h1, h2, h3, h4, h5, hupd.final.1, hupd.final.2⟩

/-- After `forward` the buffer of `s['y']` is the image of the buffer of `s['x']` under
`x -> fmaxf(x, 0)`. -/
theorem forward_data (apply_dropout : Bool) (l l' : Layer) (hx : l.sx.WF)
    (hy : l.sy.data.length = l.sx.data.length) (hsize : l.sx.rows * l.sx.cols < 2 ^ 31)
    (h : forward apply_dropout l = some l') :
    l'.sy.data = l.sx.data.map (fun xi => fmaxf xi (.fin 0)) := by
  obtain ⟨r, hrun, _, _, _, _, _, hlen, hval⟩ := forward_run apply_dropout l hx hy hsize
  rw [h] at hrun
  obtain rfl : l' = r := Option.some.inj hrun
  apply List.ext_getElem?
  intro k
  by_cases hk : k < l.sy.data.length
  · rw [hval k hk, List.getElem?_map]
  · rw [List.getElem?_eq_none (by omega), List.getElem?_eq_none (by simp; omega)]

/-- `forward` over `2 ^ 31` or more positions overflows the `int` counter. -/
theorem forward_overflow (apply_dropout : Bool) (l : Layer)
    (h : 2 ^ 31 ≤ l.sx.rows * l.sx.cols) : forward apply_dropout l = none :=
  intCounter_overflow forwardStep _ l h

/-- `backward` over `2 ^ 31` or more positions overflows the `int` counter. -/
theorem backward_overflow (l : Layer) (h : 2 ^ 31 ≤ l.gx.rows * l.gx.cols) :
    backward l = none :=
  intCounter_overflow backwardStep _ l h

end ReLU

theorem mul_ofBool (b : Bool) (g : FloatVal) :
    (b = true → (FloatVal.ofBool b).mul g = g) ∧
    (b = false → ∀ q, g = .fin q → (FloatVal.ofBool b).mul g = .fin 0) ∧
    (b = false → (g = .pinf ∨ g = .ninf ∨ g = .nan) → (FloatVal.ofBool b).mul g = .nan) := by
  refine ⟨?_, ?_, ?_⟩
  · rintro rfl
    cases g with
    | fin q => simp [FloatVal.ofBool, FloatVal.mul]
    | pinf => simp [FloatVal.ofBool, FloatVal.mul]
    | ninf => simp [FloatVal.ofBool, FloatVal.mul]
    | nan => simp [FloatVal.ofBool, FloatVal.mul]
  · rintro rfl q rfl
    simp [FloatVal.ofBool, FloatVal.mul]
  · rintro rfl (rfl | rfl | rfl) <;> simp [FloatVal.ofBool, FloatVal.mul]

/-- C7 (amended claim): for buffers `s['y']`, `g['y']`, `g['x']` with the same number of
elements, fewer than `2 ^ 31`, `backward()` runs through and leaves `g['x'][i] = g['y'][i]`
where `s['y'][i] > 0`, and elsewhere the product `0 * g['y'][i]`: `0` for a finite
`g['y'][i]` (in particular an activation that is exactly `0` yields the gradient `0` there)
and NaN for an infinite or NaN `g['y'][i]`. -/
theorem ReLU_backward_gate (l : Layer) (hgx : l.gx.WF)
    (hgy : l.gy.data.length = l.gx.data.length) (hsy : l.sy.data.length = l.gx.data.length)
    (hsize : l.gx.rows * l.gx.cols < 2 ^ 31) :
    ∃ l', ReLU.backward l = some l' ∧
      l'.gx.data.length = l.gx.data.length ∧
      (∀ (i : Nat) (yi gyi : FloatVal), l.sy.data[i]? = some yi → l.gy.data[i]? = some gyi →
        yi.gtZero = true → l'.gx.data[i]? = some gyi) ∧
      (∀ (i : Nat) (yi : FloatVal) (q : ℚ), l.sy.data[i]? = some yi →
        l.gy.data[i]? = some (.fin q) → yi.gtZero = false → l'.gx.data[i]? = some (.fin 0)) ∧
      (∀ (i : Nat) (q : ℚ), l.sy.data[i]? = some (.fin 0) → l.gy.data[i]? = some (.fin q) →
        l'.gx.data[i]? = some (.fin 0)) ∧
      (∀ (i : Nat) (yi gyi : FloatVal), l.sy.data[i]? = some yi → l.gy.data[i]? = some gyi →
        yi.gtZero = false → gyi = .pinf ∨ gyi = .ninf ∨ gyi = .nan →
        l'.gx.data[i]? = some .nan) := by
  obtain ⟨l', hrun, _, _, _, _, _, hlen, hval⟩ := ReLU.backward_run l hgx hgy hsy hsize
  have key : ∀ (i : Nat) (yi gyi : FloatVal), l.sy.data[i]? = some yi →
      l.gy.data[i]? = some gyi →
      l'.gx.data[i]? = some ((FloatVal.ofBool yi.gtZero).mul gyi) := by
    intro i yi gyi hyi hgyi
    have hi : i < l.sy.data.length := (List.getElem?_eq_some_iff.mp hyi).1
    rw [hval i (by omega), hyi, hgyi]
    rfl
  refine ⟨l', hrun, hlen, ?_, ?_, ?_, ?_⟩
  · intro i yi gyi hyi hgyi hpos
    rw [key i yi gyi hyi hgyi, (mul_ofBool yi.gtZero gyi).1 hpos]
  · intro i yi q hyi hgyi hneg
    rw [key i yi _ hyi hgyi, (mul_ofBool yi.gtZero (.fin q)).2.1 hneg q rfl]
  · intro i q hyi hgyi
    have hneg : (FloatVal.fin 0).gtZero = false := by simp [FloatVal.gtZero]
    rw [key i _ _ hyi hgyi, (mul_ofBool (FloatVal.fin 0).gtZero (.fin q)).2.1 hneg q rfl]
  · intro i yi gyi hyi hgyi hneg hcase
    rw [key i yi gyi hyi hgyi, (mul_ofBool yi.gtZero gyi).2.2 hneg hcase]

/-- C7 (witness): `s['y'] = [0, 0, 3, 0, 7]` and `g['y'] = [1, 1, 1, 1, 1]`, for which the code
computes `g['x'] = [0, 0, 1, 0, 1]`. -/
theorem ReLU_backward_gate_witness :
    ((⟨⟨5, 1, List.map FloatVal.fin [-2, 0, 3, -1/2, 7]⟩, ⟨5, 1, List.map FloatVal.fin [0, 0, 3, 0, 7]⟩, ⟨5, 1, List.map FloatVal.fin [9, 9, 9, 9, 9]⟩, ⟨5, 1, List.map FloatVal.fin [1, 1, 1, 1, 1]⟩⟩ : Layer).gx.WF ∧
      (5 : Nat) = 5 ∧ (5 : Nat) = 5 ∧ 5 * 1 < 2 ^ 31) ∧
    (∃ l', ReLU.backward ⟨⟨5, 1, List.map FloatVal.fin [-2, 0, 3, -1/2, 7]⟩, ⟨5, 1, List.map FloatVal.fin [0, 0, 3, 0, 7]⟩, ⟨5, 1, List.map FloatVal.fin [9, 9, 9, 9, 9]⟩, ⟨5, 1, List.map FloatVal.fin [1, 1, 1, 1, 1]⟩⟩ = some l' ∧
      l'.gx.data.length = 5 ∧
      (∀ (i : Nat) (yi gyi : FloatVal),
        (List.map FloatVal.fin [0, 0, 3, 0, 7])[i]? = some yi →
        (List.map FloatVal.fin [1, 1, 1, 1, 1])[i]? = some gyi →
        yi.gtZero = true → l'.gx.data[i]? = some gyi) ∧
      (∀ (i : Nat) (yi : FloatVal) (q : ℚ),
        (List.map FloatVal.fin [0, 0, 3, 0, 7])[i]? = some yi →
        (List.map FloatVal.fin [1, 1, 1, 1, 1])[i]? = some (.fin q) →
        yi.gtZero = false → l'.gx.data[i]? = some (.fin 0)) ∧
      (∀ (i : Nat) (q : ℚ),
        (List.map FloatVal.fin [0, 0, 3, 0, 7])[i]? = some (.fin 0) →
        (List.map FloatVal.fin [1, 1, 1, 1, 1])[i]? = some (.fin q) →
        l'.gx.data[i]? = some (.fin 0)) ∧
      (∀ (i : Nat) (yi gyi : FloatVal),
        (List.map FloatVal.fin [0, 0, 3, 0, 7])[i]? = some yi →
        (List.map FloatVal.fin [1, 1, 1, 1, 1])[i]? = some gyi →
        yi.gtZero = false → gyi = .pinf ∨ gyi = .ninf ∨ gyi = .nan →
        l'.gx.data[i]? = some .nan)) ∧
    ReLU.backward ⟨⟨5, 1, List.map FloatVal.fin [-2, 0, 3, -1/2, 7]⟩, ⟨5, 1, List.map FloatVal.fin [0, 0, 3, 0, 7]⟩, ⟨5, 1, List.map FloatVal.fin [9, 9, 9, 9, 9]⟩, ⟨5, 1, List.map FloatVal.fin [1, 1, 1, 1, 1]⟩⟩ = some ⟨⟨5, 1, List.map FloatVal.fin [-2, 0, 3, -1/2, 7]⟩, ⟨5, 1, List.map FloatVal.fin [0, 0, 3, 0, 7]⟩, ⟨5, 1, List.map FloatVal.fin [0, 0, 1, 0, 1]⟩, ⟨5, 1, List.map FloatVal.fin [1, 1, 1, 1, 1]⟩⟩ :=
  ⟨⟨by decide, rfl, rfl, by decide⟩,
   ReLU_backward_gate ⟨⟨5, 1, List.map FloatVal.fin [-2, 0, 3, -1/2, 7]⟩, ⟨5, 1, List.map FloatVal.fin [0, 0, 3, 0, 7]⟩, ⟨5, 1, List.map FloatVal.fin [9, 9, 9, 9, 9]⟩, ⟨5, 1, List.map FloatVal.fin [1, 1, 1, 1, 1]⟩⟩ (by decide) rfl rfl (by decide),
   by norm_num [ReLU.backward, ReLU.backwardStep, forLoop, forFrom, intCounterStep, INT_MAX,
     readAt, writeAt, FloatVal.gtZero, FloatVal.ofBool, FloatVal.mul]⟩

/-- C7 (counterexample to the claim for all buffers): with `s['y'] = [0, 0, 3]` and
`g['y'] = [+inf, NaN, +inf]` the code computes `g['x'] = [NaN, NaN, +inf]`, not `0` at the two
positions whose activation is not positive; and over buffers of `2 ^ 31` elements the `int`
counter of the loop is incremented past the largest `int`. -/
theorem ReLU_backward_gate_nonfinite :
    ReLU.backward ⟨⟨3, 1, [.fin 1, .fin 1, .fin 1]⟩, ⟨3, 1, [.fin 0, .fin 0, .fin 3]⟩,
        ⟨3, 1, [.fin 9, .fin 9, .fin 9]⟩, ⟨3, 1, [.pinf, .nan, .pinf]⟩⟩ =
      some ⟨⟨3, 1, [.fin 1, .fin 1, .fin 1]⟩, ⟨3, 1, [.fin 0, .fin 0, .fin 3]⟩,
        ⟨3, 1, [.nan, .nan, .pinf]⟩, ⟨3, 1, [.pinf, .nan, .pinf]⟩⟩ ∧
    (⟨⟨2147483648, 1, List.replicate 2147483648 (FloatVal.fin 1)⟩, ⟨2147483648, 1, List.replicate 2147483648 (FloatVal.fin 1)⟩, ⟨2147483648, 1, List.replicate 2147483648 (FloatVal.fin 1)⟩, ⟨2147483648, 1, List.replicate 2147483648 (FloatVal.fin 1)⟩⟩ : Layer).gx.WF ∧
    ReLU.backward ⟨⟨2147483648, 1, List.replicate 2147483648 (FloatVal.fin 1)⟩, ⟨2147483648, 1, List.replicate 2147483648 (FloatVal.fin 1)⟩, ⟨2147483648, 1, List.replicate 2147483648 (FloatVal.fin 1)⟩, ⟨2147483648, 1, List.replicate 2147483648 (FloatVal.fin 1)⟩⟩ = none :=
  ⟨by norm_num [ReLU.backward, ReLU.backwardStep, forLoop, forFrom, intCounterStep, INT_MAX,
     readAt, writeAt, FloatVal.gtZero, FloatVal.ofBool, FloatVal.mul],
   by
     show (List.replicate 2147483648 (FloatVal.fin 1)).length = 2147483648 * 1
     rw [List.length_replicate],
   ReLU.backward_overflow _ (by decide)⟩

/-- C16 (amended claim): for a layer state whose input `s['x']` has fewer than `2 ^ 31`
elements and whose output buffer `s['y']` has as many, `forward(apply_dropout)` runs through
and leaves `s['x']`, `g['x']` and `g['y']` unchanged, and the resulting buffer of `s['y']` is
the image of `s['x']` under `x -> fmaxf(x, 0)`: a second layer state with the same `s['x']`,
whatever its previous `s['y']`, its gradients and the flag, ends with the same buffer of
`s['y']`. -/
theorem ReLU_forward_frame (a1 a2 : Bool) (l1 l2 : Layer) (hx : l1.sx.WF)
    (hy1 : l1.sy.data.length = l1.sx.data.length) (hsx : l2.sx = l1.sx)
    (hy2 : l2.sy.data.length = l1.sx.data.length)
    (hsize : l1.sx.rows * l1.sx.cols < 2 ^ 31) :
    ∃ r1 r2, ReLU.forward a1 l1 = some r1 ∧ ReLU.forward a2 l2 = some r2 ∧
      r1.sx = l1.sx ∧ r1.gx = l1.gx ∧ r1.gy = l1.gy ∧
      r1.sy.rows = l1.sy.rows ∧ r1.sy.cols = l1.sy.cols ∧
      r1.sy.data = l1.sx.data.map (fun xi => fmaxf xi (.fin 0)) ∧
      r2.sy.data = r1.sy.data := by
  obtain ⟨r1, hrun1, h1, h2, h3, h4, h5, _, _⟩ := ReLU.forward_run a1 l1 hx hy1 hsize
  have hx2 : l2.sx.WF := by rw [hsx]; exact hx
  have hy2' : l2.sy.data.length = l2.sx.data.length := by rw [hsx]; exact hy2
  have hsize2 : l2.sx.rows * l2.sx.cols < 2 ^ 31 := by rw [hsx]; exact hsize
  obtain ⟨r2, hrun2, _⟩ := ReLU.forward_run a2 l2 hx2 hy2' hsize2
  have hd1 := ReLU.forward_data a1 l1 r1 hx hy1 hsize hrun1
  have hd2 := ReLU.forward_data a2 l2 r2 hx2 hy2' hsize2 hrun2
  refine ⟨r1, r2, hrun1, hrun2, h1, h2, h3, h4, h5, hd1, ?_⟩
  rw [hd1, hd2, hsx]

/-- C16 (witness): two layer states with the same input `[-2, 0, 3, -1/2, 7]` and different
output and gradient buffers, run with different flags. -/
theorem ReLU_forward_frame_witness :
    ((⟨⟨5, 1, List.map FloatVal.fin [-2, 0, 3, -1/2, 7]⟩, ⟨5, 1, List.map FloatVal.fin [9, 9, 9, 9, 9]⟩, ⟨5, 1, List.map FloatVal.fin [1, 1, 1, 1, 1]⟩, ⟨5, 1, List.map FloatVal.fin [1, 1, 1, 1, 1]⟩⟩ : Layer).sx.WF ∧ (5 : Nat) = 5 ∧
      (⟨5, 1, List.map FloatVal.fin [-2, 0, 3, -1/2, 7]⟩ : Matrix FloatVal) = ⟨5, 1, List.map FloatVal.fin [-2, 0, 3, -1/2, 7]⟩ ∧ (5 : Nat) = 5 ∧ 5 * 1 < 2 ^ 31) ∧
    ∃ r1 r2,
      ReLU.forward true ⟨⟨5, 1, List.map FloatVal.fin [-2, 0, 3, -1/2, 7]⟩, ⟨5, 1, List.map FloatVal.fin [9, 9, 9, 9, 9]⟩, ⟨5, 1, List.map FloatVal.fin [1, 1, 1, 1, 1]⟩, ⟨5, 1, List.map FloatVal.fin [1, 1, 1, 1, 1]⟩⟩ = some r1 ∧
      ReLU.forward false ⟨⟨5, 1, List.map FloatVal.fin [-2, 0, 3, -1/2, 7]⟩, ⟨1, 5, List.map FloatVal.fin [4, 4, 4, 4, 4]⟩, ⟨5, 1, List.map FloatVal.fin [8, 8, 8, 8, 8]⟩, ⟨5, 1, List.map FloatVal.fin [9, 9, 9, 9, 9]⟩⟩ =
        some r2 ∧
      r1.sx = ⟨5, 1, List.map FloatVal.fin [-2, 0, 3, -1/2, 7]⟩ ∧ r1.gx = ⟨5, 1, List.map FloatVal.fin [1, 1, 1, 1, 1]⟩ ∧ r1.gy = ⟨5, 1, List.map FloatVal.fin [1, 1, 1, 1, 1]⟩ ∧ r1.sy.rows = 5 ∧ r1.sy.cols = 1 ∧
      r1.sy.data = (List.map FloatVal.fin [-2, 0, 3, -1/2, 7]).map
        (fun xi => fmaxf xi (.fin 0)) ∧
      r2.sy.data = r1.sy.data :=
  ⟨⟨by decide, rfl, rfl, rfl, by decide⟩,
   ReLU_forward_frame true false ⟨⟨5, 1, List.map FloatVal.fin [-2, 0, 3, -1/2, 7]⟩, ⟨5, 1, List.map FloatVal.fin [9, 9, 9, 9, 9]⟩, ⟨5, 1, List.map FloatVal.fin [1, 1, 1, 1, 1]⟩, ⟨5, 1, List.map FloatVal.fin [1, 1, 1, 1, 1]⟩⟩
     ⟨⟨5, 1, List.map FloatVal.fin [-2, 0, 3, -1/2, 7]⟩, ⟨1, 5, List.map FloatVal.fin [4, 4, 4, 4, 4]⟩, ⟨5, 1, List.map FloatVal.fin [8, 8, 8, 8, 8]⟩, ⟨5, 1, List.map FloatVal.fin [9, 9, 9, 9, 9]⟩⟩
     (by decide) rfl rfl rfl (by decide)⟩

/-- C16 (counterexample to the claim for every layer state): over equally sized buffers of
`2 ^ 31` elements the `int` counter of the loop is incremented past the largest `int`;
`forward` has no defined outcome, so no state in which the three other buffers are
unchanged. -/
theorem ReLU_forward_frame_int_counter :
    (⟨⟨2147483648, 1, List.replicate 2147483648 (FloatVal.fin 2)⟩, ⟨2147483648, 1, List.replicate 2147483648 (FloatVal.fin 2)⟩, ⟨2147483648, 1, List.replicate 2147483648 (FloatVal.fin 2)⟩, ⟨2147483648, 1, List.replicate 2147483648 (FloatVal.fin 2)⟩⟩ : Layer).sx.WF ∧
    ReLU.forward false ⟨⟨2147483648, 1, List.replicate 2147483648 (FloatVal.fin 2)⟩, ⟨2147483648, 1, List.replicate 2147483648 (FloatVal.fin 2)⟩, ⟨2147483648, 1, List.replicate 2147483648 (FloatVal.fin 2)⟩, ⟨2147483648, 1, List.replicate 2147483648 (FloatVal.fin 2)⟩⟩ = none ∧
    ReLU.forward true ⟨⟨2147483648, 1, List.replicate 2147483648 (FloatVal.fin 2)⟩, ⟨2147483648, 1, List.replicate 2147483648 (FloatVal.fin 2)⟩, ⟨2147483648, 1, List.replicate 2147483648 (FloatVal.fin 2)⟩, ⟨2147483648, 1, List.replicate 2147483648 (FloatVal.fin 2)⟩⟩ = none :=
  ⟨by
     show (List.replicate 2147483648 (FloatVal.fin 2)).length = 2147483648 * 1
     rw [List.length_replicate],
   ReLU.forward_overflow false _ (by decide),
   ReLU.forward_overflow true _ (by decide)⟩

end mic
